import Mathlib

/-!
Verification of the graph layering / transformation engine of
`graph_algo_test/graph_transform.py` (repository `code_graphs`).

The Python module is shallowly embedded: mutable dictionaries become
functions updated with `upd`, the Kahn-style `while` loop of
`build_levels` becomes a fuel-indexed recursion (we prove the fuel
`nodes.length + 1` always suffices), Python exceptions become `Option`
(`none` = the call raises), and the global `random.random() < .5`
draws become an explicit boolean stream `rs : Nat → Bool` consumed one
coin per rename, indexed by a running counter.

Node rename history entries, stored in Python as strings `"A0→a1"`,
are modelled as pairs `(old, new)`; the only read the code performs on
them is `history[0].split('→')[0]`, i.e. the first component of the
first entry, so the two representations are isomorphic for every name
not containing `'→'`.

The file is organised as: all definitions first, then the theorems.
-/

namespace CodeGraphs

/-! ### Definitions: basic helpers -/

/-- Pointwise update of a function, modelling `d[k] = v` on a Python dict. -/
def upd {β : Type} (f : String → β) (k : String) (v : β) : String → β :=
  fun x => if x = k then v else f x

/-- The decimal digit character for `n < 10` (`'0'`..`'9'`). -/
def digChar (n : Nat) : Char := Char.ofNat (48 + n)

/-- Decimal rendering of a natural number, as Python's `str(int)` /
an f-string renders it: no sign, no leading zeros (except `"0"`). -/
def natDigits (n : Nat) : List Char :=
  if h : n < 10 then [digChar n]
  else natDigits (n / 10) ++ [digChar (n % 10)]
  termination_by n
  decreasing_by
    exact Nat.div_lt_self (Nat.lt_of_lt_of_le (by norm_num) (Nat.le_of_not_lt h)) (by norm_num)

/-- Decimal rendering of a natural number as a string. -/
def natStr (n : Nat) : String := ⟨natDigits n⟩

/-- Numeric value of a list of decimal digit characters
(what Python's `int(num)` computes on the digit group). -/
def digitsVal (l : List Char) : Nat :=
  l.foldl (fun acc c => 10 * acc + (c.toNat - 48)) 0

/-- The regex `([A-Za-z]+)(\d+)` fullmatch of `_pat`, restricted to the
ASCII digit class: splits a string into a nonempty ASCII-alphabetic group
and a nonempty digit group covering the whole string, returning the groups
(`none` when the match fails, in which case the Python code raises on
`.groups()`). The numeric group is returned already converted by
`int(...)`.  In the source the pattern is a `str` pattern, so `\d` matches
any Unicode decimal digit (category Nd), of which ASCII `0-9` is the
subclass this definition implements; on inputs whose characters are ASCII
— all concrete inputs of this development — the two classes agree, and
`patMatchD` below carries the full class for statements quantifying over
arbitrary strings. -/
def patMatch (s : String) : Option (String × Nat) :=
  let a := s.data.takeWhile Char.isAlpha
  let d := s.data.drop a.length
  if a ≠ [] ∧ d ≠ [] ∧ d.all Char.isDigit then
    some (⟨a⟩, digitsVal d)
  else
    none

/-- `bump` from the source: on a name matching `<letters><digits>`, pick the
whole prefix's case by the coin (`true` = `random.random() < .5` = upper),
increment the numeric group by one and concatenate; on a malformed name the
Python call raises (modelled as `none`). -/
def bump (coin : Bool) (old : String) : Option String :=
  match patMatch old with
  | none => none
  | some (alpha, num) =>
      some ((if coin then alpha.toUpper else alpha.toLower) ++ natStr (num + 1))

/-- The regex `([A-Za-z]+)(\d+)` fullmatch of `_pat`, generalized over the
digit class: `isD` is the set of characters `\d` matches (in a `str`
pattern, every Unicode decimal digit — category Nd) and `dv` the decimal
value `int(...)` assigns to each such digit.  The greedy split is exact
regex semantics here: `[A-Za-z]+` takes the maximal alphabetic prefix, and
since no Unicode decimal digit is an ASCII letter, backtracking can never
surrender a letter to `\d+`, so the fullmatch succeeds on exactly the
strings of shape nonempty-letters ++ nonempty-digits.
`patMatch` above is this definition at the ASCII instance
`isD = Char.isDigit`, `dv c = c.toNat - 48`. -/
def patMatchD (isD : Char → Bool) (dv : Char → Nat) (s : String) :
    Option (String × Nat) :=
  let a := s.data.takeWhile Char.isAlpha
  let d := s.data.drop a.length
  if a ≠ [] ∧ d ≠ [] ∧ d.all isD then
    some (⟨a⟩, d.foldl (fun acc c => 10 * acc + dv c) 0)
  else
    none

/-- `bump` from the source, generalized over the digit class exactly as
`patMatchD`: on a fullmatching name, pick the whole prefix's case by the
coin, increment the numeric group by one and concatenate; when the
fullmatch fails, `m.groups()` is called on `None` and the Python call
raises (modelled as `none`). -/
def bumpD (isD : Char → Bool) (dv : Char → Nat) (coin : Bool)
    (old : String) : Option String :=
  match patMatchD isD dv old with
  | none => none
  | some (alpha, num) =>
      some ((if coin then alpha.toUpper else alpha.toLower) ++ natStr (num + 1))

/-- `alias.split('_')[0]`: the part of an alias before the first `'_'`. -/
def canonOf (a : String) : String := ⟨a.data.takeWhile (fun c => c ≠ '_')⟩

/-! ### Definitions: the graph model -/

/-- A directed graph as `networkx.DiGraph` presents it to this code:
nodes in insertion order, edges in insertion order.  Iteration order of
`g`, `g.successors`, `g.predecessors` and dict views built from them
follows these lists. -/
structure Graph where
  nodes : List String
  edges : List (String × String)

/-- `g.successors v` in edge-insertion order. -/
def successors (g : Graph) (v : String) : List String :=
  (g.edges.filter (fun e => e.1 = v)).map Prod.snd

/-- `g.predecessors v` in edge-insertion order. -/
def preds (g : Graph) (v : String) : List String :=
  (g.edges.filter (fun e => e.2 = v)).map Prod.fst

/-- `g.in_degree v`. -/
def inDeg (g : Graph) (v : String) : Nat :=
  (g.edges.filter (fun e => e.2 = v)).length

/-- The input contract of §6 of the spec, satisfied by `make_graph`:
unique node ids, edges between registered nodes, no duplicate edges, no
self-loops, and every display name (= initial node id) matching
`<letters><digits>`. -/
def WF (g : Graph) : Prop :=
  g.nodes.Nodup ∧
  (∀ e ∈ g.edges, e.1 ∈ g.nodes ∧ e.2 ∈ g.nodes) ∧
  g.edges.Nodup ∧
  (∀ e ∈ g.edges, e.1 ≠ e.2) ∧
  (∀ v ∈ g.nodes, (patMatch v).isSome)

/-! ### Definitions: `build_levels` (Strategy B, Kahn-style layering) -/

/-- The mutable state of `build_levels`: the in-degree dict (`int`-valued,
it can go negative after a forced break), the `alias_cnt` defaultdict, the
`levels` list of layers, and the work `queue`. -/
structure BLState where
  indeg : String → Int
  cnt : String → Nat
  levels : List (List String)
  queue : List String

/-- `max(idx for idx, l in enumerate(levels) if a in l)`: the largest layer
index whose layer contains `a` (`0` when none does — in Python that raises,
but every alias popped from the queue has been placed, as we prove, so the
generator is never empty in a reachable state). -/
def maxIdxWith (levels : List (List String)) (a : String) : Nat :=
  (List.range levels.length).foldl
    (fun acc i => if a ∈ levels.getD i [] then i else acc) 0

/-- One step of the inner `for child in g.successors(cur_can)` loop:
decrement the child's in-degree; if it has just reached zero, mint it an
alias, place the alias one layer below the deepest layer holding
`cur`'s alias (growing `levels` by one empty layer when needed) and enqueue
it. -/
def stepChild (cur : String) (st : BLState) (child : String) : BLState :=
  let d := st.indeg child - 1
  let indeg' := upd st.indeg child d
  if d = 0 then
    let k := st.cnt child
    let newAlias := if k = 0 then child else child ++ "_" ++ natStr k
    let cnt' := upd st.cnt child (k + 1)
    let lvlIdx := maxIdxWith st.levels cur + 1
    let levels' := if st.levels.length ≤ lvlIdx then st.levels ++ [[]] else st.levels
    let levels'' := levels'.set lvlIdx ((levels'.getD lvlIdx []) ++ [newAlias])
    ⟨indeg', cnt', levels'', st.queue ++ [newAlias]⟩
  else
    ⟨indeg', st.cnt, st.levels, st.queue⟩

/-- The cycle-breaker at the end of the loop body: if the queue has emptied
while some node (in `g.nodes` iteration order) still has positive in-degree,
zero the first such node's in-degree, give it an alias and append it as a
new trailing singleton layer, re-seeding the queue. -/
def stepBreak (g : Graph) (st : BLState) : BLState :=
  if st.queue = [] ∧ g.nodes.any (fun v => decide (0 < st.indeg v)) then
    match g.nodes.find? (fun v => decide (0 < st.indeg v)) with
    | none => st
    | some stuck =>
        let c0 := st.cnt stuck
        let c1 := if c0 = 0 then 1 else c0
        let cnt' := upd st.cnt stuck c1
        let newAlias := if c1 = 1 then stuck else stuck ++ "_" ++ natStr (c1 - 1)
        ⟨upd st.indeg stuck 0, cnt', st.levels ++ [[newAlias]], st.queue ++ [newAlias]⟩
  else st

/-- One full iteration of the `while queue:` body, after `cur` has been
popped from the front of the queue. -/
def stepBL (g : Graph) (cur : String) (st : BLState) : BLState :=
  stepBreak g ((successors g (canonOf cur)).foldl (stepChild cur) st)

/-- The `while queue:` loop, with explicit fuel; `none` means the fuel ran
out before the queue emptied (we prove `g.nodes.length + 1` always
suffices, so the embedded function with that fuel is total exactly like the
Python loop). -/
def loopBL (g : Graph) : Nat → BLState → Option (List (List String))
  | 0, st => match st.queue with
      | [] => some st.levels
      | _ :: _ => none
  | fuel + 1, st => match st.queue with
      | [] => some st.levels
      | cur :: rest => loopBL g fuel (stepBL g cur ⟨st.indeg, st.cnt, st.levels, rest⟩)

/-- The state `build_levels` sets up before its loop: in-degrees from the
full edge set, layer 0 = the nodes of in-degree zero (in node order),
`alias_cnt` 1 on those and 0 elsewhere, queue seeded with layer 0. -/
def initBL (g : Graph) : BLState :=
  let indeg0 : String → Int := fun v => (inDeg g v : Int)
  let level0 := g.nodes.filter (fun v => indeg0 v = 0)
  ⟨indeg0, fun v => if v ∈ level0 then 1 else 0, [level0], level0⟩

/-- `build_levels g`. -/
def buildLevels (g : Graph) : Option (List (List String)) :=
  loopBL g (g.nodes.length + 1) (initBL g)

/-! ### Definitions: `transform` (per-level renaming pass) -/

/-- `NodeData` from the source.  `history` entries `"old→new"` are modelled
as pairs `(old, new)`; `parent_history` entries are lists of
`(orig, current)` pairs as built by `transform`. -/
structure NodeData where
  name : String
  n_transforms : Nat
  history : List (String × String)
  parent_history : List (List (String × String))

/-- The running state of a `transform` call: the per-node data arena
(`g.nodes[v]['data']` for each canonical id), the `current` dict
(canonical → latest name), and the index of the next coin of the random
stream to be consumed. -/
structure TState where
  data : String → NodeData
  current : String → Option String
  idx : Nat

/-- The node data as `make_graph` creates it: the node's display name is
its canonical id, no transforms yet, empty histories. -/
def initNode (v : String) : NodeData := ⟨v, 0, [], []⟩

/-- The body of `transform`'s inner loop for one `alias` of the layer at
depth `depth`: resolve the canonical node, bump its name (consuming one
coin; a malformed name makes the Python call raise, modelled `none`),
record the rename, and — on non-initial layers — append the parent
snapshot `(orig, current.get(p, p_data.name))` for each predecessor `p`
in edge order. -/
def doAlias (g : Graph) (rs : Nat → Bool) (depth : Nat) (st : TState)
    (a : String) : Option TState :=
  let canon := canonOf a
  let nd := st.data canon
  let old := nd.name
  match bump (rs st.idx) old with
  | none => none
  | some new =>
      let nd1 : NodeData :=
        ⟨new, nd.n_transforms + 1, nd.history ++ [(old, new)], nd.parent_history⟩
      let data1 := upd st.data canon nd1
      let current1 := fun p => if p = canon then some new else st.current p
      if depth = 0 then
        some ⟨data1, current1, st.idx + 1⟩
      else
        let pairs := (preds g canon).map (fun p =>
          let pd := data1 p
          let orig := match pd.history with
            | [] => pd.name
            | h :: _ => h.1
          (orig, (current1 p).getD pd.name))
        let nd2 : NodeData := ⟨nd1.name, nd1.n_transforms, nd1.history,
          nd1.parent_history ++ [pairs]⟩
        some ⟨upd data1 canon nd2, current1, st.idx + 1⟩

/-- `transform`'s inner loop over one layer's aliases, in layer order. -/
def runLayer (g : Graph) (rs : Nat → Bool) (depth : Nat) :
    TState → List String → Option TState
  | st, [] => some st
  | st, a :: rest =>
      match doAlias g rs depth st a with
      | none => none
      | some st' => runLayer g rs depth st' rest

/-- `transform`'s outer loop over the layers, `depth` counting from the
given start. -/
def runLevels (g : Graph) (rs : Nat → Bool) :
    Nat → TState → List (List String) → Option TState
  | _, st, [] => some st
  | depth, st, layer :: more =>
      match runLayer g rs depth st layer with
      | none => none
      | some st' => runLevels g rs (depth + 1) st' more

/-- `transform levels g`: start with a fresh empty `current` dict (as the
source does), an arbitrary node arena (the demo run starts from
`fun v => initNode v`) and an arbitrary position `idx0` in the global
random stream, and process every layer in order. -/
def transform (g : Graph) (levels : List (List String)) (rs : Nat → Bool)
    (data0 : String → NodeData) (idx0 : Nat) : Option TState :=
  runLevels g rs 0 ⟨data0, fun _ => none, idx0⟩ levels

/-! ### Definitions: concrete example graphs and streams -/

/-- The three-node chain `A0→B0→C0` of §8's acyclic example. -/
def chainG : Graph := ⟨["A0", "B0", "C0"], [("A0", "B0"), ("B0", "C0")]⟩

/-- The two-node cycle `A0→B0, B0→A0` of §8's cyclic example. -/
def cyc2G : Graph := ⟨["A0", "B0"], [("A0", "B0"), ("B0", "A0")]⟩

/-- The graph with zero nodes. -/
def emptyG : Graph := ⟨[], []⟩

/-- A concrete coin stream: always `true`. -/
def rsA : Nat → Bool := fun _ => true

/-- A pointwise-equal but syntactically different coin stream. -/
def rsB : Nat → Bool := fun n => decide (n ≤ n + 1)

/-! ### Definitions: layering-analysis helpers -/

/-- All aliases placed so far, in layer-then-position order.  Each queue
insertion of `build_levels` appends exactly one alias here (layer 0 and the
initial queue are the same list; the normal path appends the alias to a
layer and to the queue together; so does the forced break), so the length
of this list is the total number of aliases minted. -/
def flatBL (st : BLState) : List String := st.levels.flatten

/-- The index of the first layer containing `v` (= the only one, once the
layering is known duplicate-free). -/
def layerIdx (levels : List (List String)) (v : String) : Nat :=
  levels.findIdx (fun l => decide (v ∈ l))

/-- The state invariant of the `build_levels` loop, for an arbitrary input
graph with duplicate-free nodes and edge targets among the nodes: `levels`
stays nonempty; the placed aliases are pairwise distinct bare node ids;
`alias_cnt` is exactly the indicator of having been placed; a node with
positive in-degree was never placed; an unplaced node keeps positive
in-degree; and the queue holds placed aliases without duplicates. -/
structure BLInv (g : Graph) (st : BLState) : Prop where
  levels_ne : st.levels ≠ []
  flat_nodup : (flatBL st).Nodup
  flat_sub : ∀ a ∈ flatBL st, a ∈ g.nodes
  cnt_eq : ∀ v, st.cnt v = if v ∈ flatBL st then 1 else 0
  indeg_pos_unplaced : ∀ v, 0 < st.indeg v → v ∉ flatBL st
  unplaced_indeg_pos : ∀ v ∈ g.nodes, v ∉ flatBL st → 0 < st.indeg v
  queue_sub : ∀ v ∈ st.queue, v ∈ flatBL st
  queue_nodup : st.queue.Nodup

/-- The loop-head invariant of `build_levels` used for the acyclic layering
claim, on top of `BLInv`: queue positions are nondecreasing; every queued
alias sits within the last two layers; popped aliases sit no deeper than any
queued one; every already-resolved edge strictly increases the layer index;
and the current in-degree of each node counts its edges from sources not yet
popped. -/
structure BLInvA (g : Graph) (st : BLState) : Prop where
  base : BLInv g st
  qchain : st.queue.Pairwise (fun x y => layerIdx st.levels x ≤ layerIdx st.levels y)
  qdepth : ∀ v ∈ st.queue, st.levels.length ≤ layerIdx st.levels v + 2
  popped_le : ∀ s, s ∈ flatBL st → s ∉ st.queue →
    ∀ v ∈ st.queue, layerIdx st.levels s ≤ layerIdx st.levels v
  edge_ok : ∀ e ∈ g.edges, e.2 ∈ flatBL st →
    e.1 ∈ flatBL st ∧ layerIdx st.levels e.1 < layerIdx st.levels e.2 ∧ e.1 ∉ st.queue
  indeg_eq : ∀ v, st.indeg v = (inDeg g v : Int)
    - (((preds g v).filter
        (fun s => decide (s ∈ flatBL st) && !decide (s ∈ st.queue))).length : Int)

/-- The invariant holding while the inner `for child in successors(cur)`
loop of one `build_levels` iteration runs, `done` being the prefix of
successors already decremented: as `BLInvA`, with `cur` itself counted as
popped (it stands outside the queue, at a layer at least as deep as every
popped alias and at most as deep as every queued one). -/
structure BLInvM (g : Graph) (cur : String) (done : List String) (st : BLState) : Prop where
  base : BLInv g st
  cur_flat : cur ∈ flatBL st
  cur_notq : cur ∉ st.queue
  qchain : st.queue.Pairwise (fun x y => layerIdx st.levels x ≤ layerIdx st.levels y)
  qband : ∀ v ∈ st.queue, layerIdx st.levels cur ≤ layerIdx st.levels v ∧
    layerIdx st.levels v ≤ layerIdx st.levels cur + 1
  qlen : st.levels.length ≤ layerIdx st.levels cur + 2
  popped_le : ∀ s, s ∈ flatBL st → s ∉ st.queue →
    ∀ v ∈ st.queue, layerIdx st.levels s ≤ layerIdx st.levels v
  popped_le_cur : ∀ s, s ∈ flatBL st → s ∉ st.queue →
    layerIdx st.levels s ≤ layerIdx st.levels cur
  edge_ok : ∀ e ∈ g.edges, e.2 ∈ flatBL st →
    e.1 ∈ flatBL st ∧ layerIdx st.levels e.1 < layerIdx st.levels e.2 ∧ e.1 ∉ st.queue
  indeg_eq : ∀ v, st.indeg v = (inDeg g v : Int)
    - (((preds g v).filter
        (fun s => decide (s ∈ flatBL st) && !decide (s ∈ st.queue) && !decide (s = cur))).length : Int)
    - (if v ∈ done then 1 else 0)

/-- A rank function witnessing that the chain graph is acyclic. -/
def rankChain : String → Nat :=
  fun v => if v = "A0" then 0 else if v = "B0" then 1 else 2

/-! ### Definitions: specification predicates -/

/-- Semantic form of the display-name pattern `<letters><digits>`: the
string splits into a nonempty all-ASCII-alphabetic part followed by a
nonempty all-digit part. -/
def NameForm (s : String) : Prop :=
  ∃ a d : List Char, s.data = a ++ d ∧ a ≠ [] ∧ d ≠ [] ∧
    (∀ c ∈ a, c.isAlpha) ∧ (∀ c ∈ d, c.isDigit)

/-- The invariant of C7 for a single node. -/
def countOk (nd : NodeData) : Prop := nd.history.length = nd.n_transforms

/-- C5's relation between the old and the new name of one rename: both
parse under the pattern, the numeric suffix increments by exactly one, and
the new alphabetic prefix is the old one in all-upper or all-lower case. -/
def renamedBy (old nw : String) : Prop :=
  ∃ (a : String) (n : Nat) (a' : String),
    patMatch old = some (a, n) ∧ patMatch nw = some (a', n + 1) ∧
    ((a' = a.toUpper ∧ ∀ c ∈ a'.data, c.isUpper = true) ∨
     (a' = a.toLower ∧ ∀ c ∈ a'.data, c.isLower = true))

/-- All entries of a rename history satisfy C5's per-entry relation. -/
def histOk (l : List (String × String)) : Prop :=
  ∀ pr ∈ l, renamedBy pr.1 pr.2

/-! ### Theorems: generic helpers -/

@[simp] theorem upd_same {β : Type} (f : String → β) (k : String) (v : β) :
    upd f k v k = v := by simp [upd]

@[simp] theorem upd_apply {β : Type} (f : String → β) (k : String) (v : β) (x : String) :
    upd f k v x = if x = k then v else f x := rfl

theorem upd_ne {β : Type} (f : String → β) (k : String) (v : β) (x : String)
    (h : x ≠ k) : upd f k v x = f x := by simp [upd, h]

theorem ule_of_toNat {a b : UInt32} (h : a.toNat ≤ b.toNat) : a ≤ b := h

theorem toNat_of_ule {a b : UInt32} (h : a ≤ b) : a.toNat ≤ b.toNat := h

theorem isUpper_iff (c : Char) : c.isUpper = true ↔ 65 ≤ c.toNat ∧ c.toNat ≤ 90 := by
  simp only [Char.isUpper, Bool.and_eq_true, decide_eq_true_eq]
  exact ⟨fun ⟨a, b⟩ => ⟨a, b⟩, fun ⟨a, b⟩ => ⟨a, b⟩⟩

theorem isLower_iff (c : Char) : c.isLower = true ↔ 97 ≤ c.toNat ∧ c.toNat ≤ 122 := by
  simp only [Char.isLower, Bool.and_eq_true, decide_eq_true_eq]
  exact ⟨fun ⟨a, b⟩ => ⟨a, b⟩, fun ⟨a, b⟩ => ⟨a, b⟩⟩

theorem isDigit_iff (c : Char) : c.isDigit = true ↔ 48 ≤ c.toNat ∧ c.toNat ≤ 57 := by
  simp only [Char.isDigit, Bool.and_eq_true, decide_eq_true_eq]
  exact ⟨fun ⟨a, b⟩ => ⟨a, b⟩, fun ⟨a, b⟩ => ⟨a, b⟩⟩

theorem isAlpha_iff (c : Char) :
    c.isAlpha = true ↔ (65 ≤ c.toNat ∧ c.toNat ≤ 90) ∨ (97 ≤ c.toNat ∧ c.toNat ≤ 122) := by
  simp only [Char.isAlpha, Bool.or_eq_true]
  rw [isUpper_iff, isLower_iff]

theorem isDigit_not_isAlpha {c : Char} (h : c.isDigit = true) :
    ¬ (c.isAlpha = true) := by
  intro hcon
  rw [isDigit_iff] at h
  rw [isAlpha_iff] at hcon
  omega

theorem toNat_ofNat_small {m : Nat} (h : m < 55296) : (Char.ofNat m).toNat = m := by
  rw [Char.ofNat, dif_pos (Or.inl h)]
  rfl

theorem takeWhile_all_append {p : Char → Bool} (a d : List Char)
    (ha : ∀ c ∈ a, p c) (hd : ∀ x, d.head? = some x → ¬ p x) :
    (a ++ d).takeWhile p = a := by
  induction a with
  | nil =>
      simp only [List.nil_append]
      cases d with
      | nil => simp
      | cons x xs =>
          simp only [List.takeWhile]
          have := hd x rfl
          simp [this]
  | cons c cs ih =>
      have hc : p c := ha c (by simp)
      simp only [List.cons_append, List.takeWhile, hc]
      have := ih (fun x hx => ha x (by simp [hx]))
      simp [this]

theorem drop_length_takeWhile (p : Char → Bool) (l : List Char) :
    l.drop (l.takeWhile p).length = l.dropWhile p := by
  induction l with
  | nil => simp
  | cons c cs ih =>
      by_cases h : p c <;> simp [List.takeWhile, List.dropWhile, h, ih]

/-! ### Theorems: the pattern and `bump` -/

theorem patMatch_split {s : String} {a d : List Char} (hs : s.data = a ++ d)
    (hane : a ≠ []) (hdne : d ≠ []) (ha : ∀ c ∈ a, c.isAlpha = true)
    (hd : ∀ c ∈ d, c.isDigit = true) :
    patMatch s = some (⟨a⟩, digitsVal d) := by
  have htake : (a ++ d).takeWhile Char.isAlpha = a := by
    refine takeWhile_all_append a d ha ?_
    intro x hx
    have hxd : x ∈ d := by
      cases d with
      | nil => simp at hx
      | cons y ys => simp at hx; simp [hx]
    exact isDigit_not_isAlpha (hd x hxd)
  have hdrop : (a ++ d).drop a.length = d := by simp
  simp only [patMatch, hs, htake, hdrop]
  have hall : d.all Char.isDigit = true := by
    simp only [List.all_eq_true]
    exact fun c hc => hd c hc
  simp [hane, hdne, hall]

theorem patMatch_of_NameForm {s : String} (h : NameForm s) :
    ∃ a d : List Char, s.data = a ++ d ∧ a ≠ [] ∧ d ≠ [] ∧
      (∀ c ∈ a, c.isAlpha) ∧ (∀ c ∈ d, c.isDigit) ∧
      patMatch s = some (⟨a⟩, digitsVal d) := by
  obtain ⟨a, d, hs, hane, hdne, ha, hd⟩ := h
  exact ⟨a, d, hs, hane, hdne, ha, hd, patMatch_split hs hane hdne ha hd⟩

theorem NameForm_of_patMatch {s : String} {α : String} {n : Nat}
    (h : patMatch s = some (α, n)) : NameForm s := by
  simp only [patMatch] at h
  split at h
  case isTrue hcond =>
      obtain ⟨ha, hd, hall⟩ := hcond
      refine ⟨s.data.takeWhile Char.isAlpha,
        s.data.drop (s.data.takeWhile Char.isAlpha).length, ?_, ha, hd, ?_, ?_⟩
      · rw [drop_length_takeWhile]
        exact (List.takeWhile_append_dropWhile _ _).symm
      · exact fun c hc => List.mem_takeWhile_imp hc
      · intro c hc
        have := List.all_eq_true.mp hall c hc
        exact this
  case isFalse => exact absurd h (by simp)

theorem patMatchD_ascii (s : String) :
    patMatchD Char.isDigit (fun c => c.toNat - 48) s = patMatch s := rfl

theorem bumpD_ascii (coin : Bool) (s : String) :
    bumpD Char.isDigit (fun c => c.toNat - 48) coin s = bump coin s := rfl

theorem patMatch_fst {s α : String} {n : Nat} (h : patMatch s = some (α, n)) :
    α.data ≠ [] ∧ ∀ c ∈ α.data, c.isAlpha = true := by
  simp only [patMatch] at h
  split at h
  case isTrue hcond =>
      obtain ⟨ha, hd, hall⟩ := hcond
      have hp := Option.some.inj h
      have h1 : (⟨s.data.takeWhile Char.isAlpha⟩ : String) = α := congrArg Prod.fst hp
      have h2 : α.data = s.data.takeWhile Char.isAlpha := by
        rw [← h1]
      constructor
      · rw [h2]; exact ha
      · intro c hc
        rw [h2] at hc
        exact List.mem_takeWhile_imp hc
  case isFalse => exact absurd h (by simp)

theorem digChar_toNat {n : Nat} (h : n < 10) : (digChar n).toNat = 48 + n := by
  exact toNat_ofNat_small (by omega)

theorem digChar_isDigit {n : Nat} (h : n < 10) : (digChar n).isDigit = true := by
  rw [isDigit_iff, digChar_toNat h]
  omega

theorem digitsVal_append (l : List Char) (c : Char) :
    digitsVal (l ++ [c]) = 10 * digitsVal l + (c.toNat - 48) := by
  simp [digitsVal, List.foldl_append]

theorem natDigits_spec (n : Nat) :
    natDigits n ≠ [] ∧ (∀ c ∈ natDigits n, c.isDigit = true) ∧
      digitsVal (natDigits n) = n := by
  induction n using Nat.strong_induction_on with
  | _ n ih =>
    rw [natDigits]
    by_cases h : n < 10
    · simp only [dif_pos h]
      refine ⟨by simp, ?_, ?_⟩
      · intro c hc
        simp only [List.mem_singleton] at hc
        subst hc
        exact digChar_isDigit h
      · simp only [digitsVal, List.foldl_cons, List.foldl_nil]
        rw [show (10 * 0 + ((digChar n).toNat - 48)) = (digChar n).toNat - 48 by omega]
        rw [digChar_toNat h]
        omega
    · simp only [dif_neg h]
      have hdiv : n / 10 < n := Nat.div_lt_self (by omega) (by norm_num)
      obtain ⟨h1, h2, h3⟩ := ih (n / 10) hdiv
      have hm : n % 10 < 10 := Nat.mod_lt _ (by norm_num)
      refine ⟨by simp, ?_, ?_⟩
      · intro c hc
        rcases List.mem_append.mp hc with hc | hc
        · exact h2 c hc
        · simp only [List.mem_singleton] at hc
          subst hc
          exact digChar_isDigit hm
      · rw [digitsVal_append, h3, digChar_toNat hm]
        omega

theorem toUpper_of_alpha {c : Char} (h : c.isAlpha = true) :
    (c.toUpper).isUpper = true := by
  rw [isAlpha_iff] at h
  unfold Char.toUpper
  by_cases hr : c.toNat ≥ 97 ∧ c.toNat ≤ 122
  · rw [if_pos hr]
    rw [isUpper_iff, toNat_ofNat_small (by omega)]
    omega
  · rw [if_neg hr, isUpper_iff]
    omega

theorem toLower_of_alpha {c : Char} (h : c.isAlpha = true) :
    (c.toLower).isLower = true := by
  rw [isAlpha_iff] at h
  unfold Char.toLower
  by_cases hr : c.toNat ≥ 65 ∧ c.toNat ≤ 90
  · rw [if_pos hr]
    rw [isLower_iff, toNat_ofNat_small (by omega)]
    omega
  · rw [if_neg hr, isLower_iff]
    omega

theorem isAlpha_of_isUpper {c : Char} (h : c.isUpper = true) : c.isAlpha = true := by
  rw [isUpper_iff] at h
  rw [isAlpha_iff]
  omega

theorem isAlpha_of_isLower {c : Char} (h : c.isLower = true) : c.isAlpha = true := by
  rw [isLower_iff] at h
  rw [isAlpha_iff]
  omega

theorem toUpper_data (s : String) : (s.toUpper).data = s.data.map Char.toUpper := by
  show (String.map Char.toUpper s).data = s.data.map Char.toUpper
  rw [String.map_eq]

theorem toLower_data (s : String) : (s.toLower).data = s.data.map Char.toLower := by
  show (String.map Char.toLower s).data = s.data.map Char.toLower
  rw [String.map_eq]

/-- The key `bump` lemma: on a matching name, `bump` returns the recased
prefix concatenated with the incremented suffix, and the result is again a
matching name whose parse exhibits exactly C5's relation to the input. -/
theorem bump_renames {old a : String} {n : Nat}
    (h : patMatch old = some (a, n)) (coin : Bool) :
    bump coin old = some ((if coin then a.toUpper else a.toLower) ++ natStr (n + 1)) ∧
    renamedBy old ((if coin then a.toUpper else a.toLower) ++ natStr (n + 1)) := by
  obtain ⟨hane, ha⟩ := patMatch_fst h
  obtain ⟨hdne, hdig, _⟩ := natDigits_spec (n + 1)
  constructor
  · simp [bump, h]
  · set P : String := if coin then a.toUpper else a.toLower with hP
    have hPdata : P.data = a.data.map (if coin then Char.toUpper else Char.toLower) := by
      cases coin <;> simp [hP, toUpper_data, toLower_data]
    have hPne : P.data ≠ [] := by
      rw [hPdata]
      simp only [ne_eq, List.map_eq_nil]
      exact hane
    have hPcase : (∀ c ∈ P.data, c.isUpper = true) ∨ (∀ c ∈ P.data, c.isLower = true) := by
      cases coin
      · right
        intro c hc
        rw [hPdata] at hc
        simp only [Bool.false_eq_true, if_false, List.mem_map] at hc
        obtain ⟨c0, hc0, rfl⟩ := hc
        exact toLower_of_alpha (ha c0 hc0)
      · left
        intro c hc
        rw [hPdata] at hc
        simp only [if_true, List.mem_map] at hc
        obtain ⟨c0, hc0, rfl⟩ := hc
        exact toUpper_of_alpha (ha c0 hc0)
    have hPalpha : ∀ c ∈ P.data, c.isAlpha = true := by
      rcases hPcase with hcase | hcase
      · exact fun c hc => isAlpha_of_isUpper (hcase c hc)
      · exact fun c hc => isAlpha_of_isLower (hcase c hc)
    have hsplit : (P ++ natStr (n + 1)).data = P.data ++ natDigits (n + 1) := by
      rw [String.data_append]
      rfl
    have hmatch : patMatch (P ++ natStr (n + 1)) = some (⟨P.data⟩, digitsVal (natDigits (n + 1))) :=
      patMatch_split hsplit hPne hdne hPalpha hdig
    have hvals : digitsVal (natDigits (n + 1)) = n + 1 := (natDigits_spec (n + 1)).2.2
    have hPeta : (⟨P.data⟩ : String) = P := rfl
    rw [hvals, hPeta] at hmatch
    refine ⟨a, n, P, h, hmatch, ?_⟩
    rcases hPcase with hcase | hcase
    · left
      constructor
      · cases hcoin : coin
        · exfalso
          rw [hP, hcoin] at hcase
          simp only [Bool.false_eq_true, if_false] at hcase
          obtain ⟨c0, hc0⟩ := List.exists_mem_of_ne_nil a.data hane
          have hl := toLower_of_alpha (ha c0 hc0)
          have hu := hcase (c0.toLower) (by
            rw [toLower_data]
            exact List.mem_map_of_mem Char.toLower hc0)
          rw [isLower_iff] at hl
          rw [isUpper_iff] at hu
          omega
        · rw [hP, hcoin]
          simp
      · exact hcase
    · right
      constructor
      · cases hcoin : coin
        · rw [hP, hcoin]
          simp
        · exfalso
          rw [hP, hcoin] at hcase
          simp only [if_true] at hcase
          obtain ⟨c0, hc0⟩ := List.exists_mem_of_ne_nil a.data hane
          have hl := toUpper_of_alpha (ha c0 hc0)
          have hu := hcase (c0.toUpper) (by
            rw [toUpper_data]
            exact List.mem_map_of_mem Char.toUpper hc0)
          rw [isUpper_iff] at hl
          rw [isLower_iff] at hu
          omega
      · exact hcase

/-- Every successful `bump` realises C5's rename relation. -/
theorem bump_some_renames {coin : Bool} {old nw : String}
    (hb : bump coin old = some nw) : renamedBy old nw := by
  unfold bump at hb
  cases hp : patMatch old with
  | none => rw [hp] at hb; exact absurd hb (by simp)
  | some pr =>
      rcases pr with ⟨a, n⟩
      rw [hp] at hb
      simp only at hb
      have h2 := (bump_renames hp coin).2
      have h1 := Option.some.inj hb
      rw [h1] at h2
      exact h2

theorem string_eq_of_data {s t : String} (h : s.data = t.data) : s = t := by
  cases s
  cases t
  simp only at h
  rw [h]

theorem toUpper_A : ("A" : String).toUpper = "A" := by
  apply string_eq_of_data
  rw [toUpper_data]
  decide

theorem toLower_A : ("A" : String).toLower = "a" := by
  apply string_eq_of_data
  rw [toLower_data]
  decide

theorem toUpper_B : ("B" : String).toUpper = "B" := by
  apply string_eq_of_data
  rw [toUpper_data]
  decide

theorem toLower_B : ("B" : String).toLower = "b" := by
  apply string_eq_of_data
  rw [toLower_data]
  decide

theorem toUpper_C : ("C" : String).toUpper = "C" := by
  apply string_eq_of_data
  rw [toUpper_data]
  decide

theorem toLower_C : ("C" : String).toLower = "c" := by
  apply string_eq_of_data
  rw [toLower_data]
  decide

/-! ### Theorems: invariants of the transform loops -/

theorem doAlias_countOk {g : Graph} {rs : Nat → Bool} {depth : Nat}
    {st : TState} {a : String} {st' : TState}
    (h : doAlias g rs depth st a = some st')
    (hs : ∀ v, countOk (st.data v)) : ∀ v, countOk (st'.data v) := by
  simp only [doAlias] at h
  cases hb : bump (rs st.idx) ((st.data (canonOf a)).name) with
  | none => rw [hb] at h; exact absurd h (by simp)
  | some new =>
      rw [hb] at h
      simp only at h
      have hlen : ∀ x : String,
          ((st.data (canonOf a)).history ++ [((st.data (canonOf a)).name, x)]).length
          = (st.data (canonOf a)).n_transforms + 1 := by
        intro x
        have hc := hs (canonOf a)
        simp only [countOk] at hc
        simp [hc]
      split at h
      case isTrue =>
        have h' := Option.some.inj h
        subst h'
        intro v
        dsimp only
        by_cases hv : v = canonOf a
        · rw [hv, upd_same]
          exact hlen new
        · rw [upd_ne _ _ _ _ hv]
          exact hs v
      case isFalse =>
        have h' := Option.some.inj h
        subst h'
        intro v
        dsimp only
        by_cases hv : v = canonOf a
        · rw [hv, upd_same]
          exact hlen new
        · rw [upd_ne _ _ _ _ hv, upd_ne _ _ _ _ hv]
          exact hs v

theorem doAlias_histOk {g : Graph} {rs : Nat → Bool} {depth : Nat}
    {st : TState} {a : String} {st' : TState}
    (h : doAlias g rs depth st a = some st')
    (hs : ∀ v, histOk (st.data v).history) : ∀ v, histOk (st'.data v).history := by
  simp only [doAlias] at h
  cases hb : bump (rs st.idx) ((st.data (canonOf a)).name) with
  | none => rw [hb] at h; exact absurd h (by simp)
  | some new =>
      rw [hb] at h
      simp only at h
      have hnew : histOk ((st.data (canonOf a)).history ++
          [((st.data (canonOf a)).name, new)]) := by
        intro pr hpr
        rcases List.mem_append.mp hpr with hpr | hpr
        · exact hs (canonOf a) pr hpr
        · simp only [List.mem_singleton] at hpr
          subst hpr
          exact bump_some_renames hb
      split at h
      case isTrue =>
        have h' := Option.some.inj h
        subst h'
        intro v
        dsimp only
        by_cases hv : v = canonOf a
        · rw [hv, upd_same]
          exact hnew
        · rw [upd_ne _ _ _ _ hv]
          exact hs v
      case isFalse =>
        have h' := Option.some.inj h
        subst h'
        intro v
        dsimp only
        by_cases hv : v = canonOf a
        · rw [hv, upd_same]
          exact hnew
        · rw [upd_ne _ _ _ _ hv, upd_ne _ _ _ _ hv]
          exact hs v

theorem runLayer_inv {g : Graph} {rs : Nat → Bool} {P : TState → Prop}
    (hstep : ∀ depth st a st', doAlias g rs depth st a = some st' → P st → P st') :
    ∀ (depth : Nat) (l : List String) (st st' : TState),
      runLayer g rs depth st l = some st' → P st → P st' := by
  intro depth l
  induction l with
  | nil =>
      intro st st' h hs
      simp only [runLayer] at h
      have h' := Option.some.inj h
      subst h'
      exact hs
  | cons a rest ih =>
      intro st st' h hs
      simp only [runLayer] at h
      cases hd : doAlias g rs depth st a with
      | none => rw [hd] at h; exact absurd h (by simp)
      | some st1 =>
          rw [hd] at h
          exact ih st1 st' h (hstep depth st a st1 hd hs)

theorem runLevels_inv {g : Graph} {rs : Nat → Bool} {P : TState → Prop}
    (hstep : ∀ depth st a st', doAlias g rs depth st a = some st' → P st → P st') :
    ∀ (lv : List (List String)) (depth : Nat) (st st' : TState),
      runLevels g rs depth st lv = some st' → P st → P st' := by
  intro lv
  induction lv with
  | nil =>
      intro depth st st' h hs
      simp only [runLevels] at h
      have h' := Option.some.inj h
      subst h'
      exact hs
  | cons layer more ih =>
      intro depth st st' h hs
      simp only [runLevels] at h
      cases hd : runLayer g rs depth st layer with
      | none => rw [hd] at h; exact absurd h (by simp)
      | some st1 =>
          rw [hd] at h
          exact ih (depth + 1) st1 st' h (runLayer_inv hstep depth layer st st1 hd hs)

/-! ### Theorems: list helpers for the layering analysis -/

theorem flatten_set_perm {L : List (List String)} {i : Nat} (h : i < L.length)
    (x : String) :
    List.Perm ((L.set i ((L.getD i []) ++ [x])).flatten) (x :: L.flatten) := by
  have hgetD : L.getD i [] = L.get ⟨i, h⟩ := by
    simp [List.getD_eq_getElem?_getD, List.getElem?_eq_getElem h]
  have hset : L.set i ((L.getD i []) ++ [x])
      = L.take i ++ ((L.getD i []) ++ [x]) :: L.drop (i + 1) := by
    rw [List.set_eq_take_append_cons_drop, if_pos h]
  have hL : L = L.take i ++ (L.getD i []) :: L.drop (i + 1) := by
    conv_lhs => rw [← List.take_append_drop i L]
    congr 1
    rw [hgetD]
    exact (List.get_cons_drop L ⟨i, h⟩).symm
  rw [hset]
  conv_rhs => rw [hL]
  simp only [List.flatten_append, List.flatten_cons, List.append_assoc]
  have hmid := @List.perm_middle String x ((L.take i).flatten ++ L.getD i [])
      ((L.drop (i + 1)).flatten)
  simpa only [List.append_assoc, List.singleton_append] using hmid

theorem foldl_pick_unique {Q : Nat → Prop} [DecidablePred Q] {i0 : Nat} :
    ∀ n : Nat, i0 < n → Q i0 → (∀ j, j < n → Q j → j = i0) →
      (List.range n).foldl (fun acc i => if Q i then i else acc) 0 = i0 := by
  intro n
  induction n with
  | zero => intro h; omega
  | succ m ih =>
      intro h hQ huniq
      rw [List.range_succ, List.foldl_append]
      simp only [List.foldl_cons, List.foldl_nil]
      by_cases hm : i0 = m
      · subst hm
        rw [if_pos hQ]
      · have hi0 : i0 < m := by omega
        have hQm : ¬ Q m := by
          intro hQm
          exact hm (huniq m (by omega) hQm).symm
        rw [if_neg hQm]
        exact ih hi0 hQ (fun j hj hQj => huniq j (by omega) hQj)

theorem foldl_pick_lt {Q : Nat → Prop} [DecidablePred Q] :
    ∀ n : Nat, 0 < n → (List.range n).foldl (fun acc i => if Q i then i else acc) 0 < n := by
  intro n
  induction n with
  | zero => intro h; omega
  | succ m ih =>
      intro _
      rw [List.range_succ, List.foldl_append]
      simp only [List.foldl_cons, List.foldl_nil]
      by_cases hQm : Q m
      · rw [if_pos hQm]
        omega
      · rw [if_neg hQm]
        by_cases hm : 0 < m
        · exact Nat.lt_trans (ih hm) (by omega)
        · have hz : m = 0 := by omega
          subst hz
          simp

theorem maxIdxWith_lt_length {L : List (List String)} (h : L ≠ []) (v : String) :
    maxIdxWith L v < L.length := by
  have hpos : 0 < L.length := List.length_pos.mpr h
  unfold maxIdxWith
  exact foldl_pick_lt L.length hpos

theorem mem_flatten_exists_layer {L : List (List String)} {v : String}
    (h : v ∈ L.flatten) : ∃ l ∈ L, v ∈ l := by
  simpa using List.mem_flatten.mp h

theorem layerIdx_lt_length {L : List (List String)} {v : String}
    (h : v ∈ L.flatten) : layerIdx L v < L.length := by
  obtain ⟨l, hl, hvl⟩ := mem_flatten_exists_layer h
  exact List.findIdx_lt_length_of_exists ⟨l, hl, by simpa using hvl⟩

theorem layerIdx_mem {L : List (List String)} {v : String} (h : v ∈ L.flatten) :
    v ∈ L.get ⟨layerIdx L v, layerIdx_lt_length h⟩ := by
  have := List.findIdx_get (w := layerIdx_lt_length h)
  simpa using this

theorem layerIdx_not_mem_lt {L : List (List String)} {v : String} {j : Nat}
    (hj : j < L.length) (hlt : j < layerIdx L v) :
    v ∉ L.get ⟨j, hj⟩ := by
  intro hmem
  have h2 := List.not_of_lt_findIdx (p := fun l => decide (v ∈ l)) hlt
  rw [List.get_eq_getElem] at hmem
  simp [hmem] at h2

theorem layer_unique {L : List (List String)} (hnd : L.flatten.Nodup)
    {v : String} {i j : Nat} (hi : i < L.length) (hj : j < L.length)
    (hvi : v ∈ L.get ⟨i, hi⟩) (hvj : v ∈ L.get ⟨j, hj⟩) : i = j := by
  by_contra hne
  rw [List.nodup_flatten] at hnd
  obtain ⟨_, hpair⟩ := hnd
  rw [List.pairwise_iff_getElem] at hpair
  rw [List.get_eq_getElem] at hvi hvj
  rcases Nat.lt_or_ge i j with hij | hij
  · exact absurd hvj (hpair i j hi hj hij hvi)
  · have hji : j < i := by omega
    exact absurd hvi (hpair j i hj hi hji hvj)

theorem maxIdxWith_eq_layerIdx {L : List (List String)} {v : String}
    (hnd : L.flatten.Nodup) (hv : v ∈ L.flatten) :
    maxIdxWith L v = layerIdx L v := by
  have hlt := layerIdx_lt_length hv
  have hmem := layerIdx_mem hv
  unfold maxIdxWith
  refine foldl_pick_unique L.length hlt ?_ ?_
  · have : L.getD (layerIdx L v) [] = L.get ⟨layerIdx L v, hlt⟩ := by
      simp [List.getD_eq_getElem?_getD, List.getElem?_eq_getElem hlt]
    rw [this]
    simpa using hmem
  · intro j hj hPj
    have hgd : L.getD j [] = L.get ⟨j, hj⟩ := by
      simp [List.getD_eq_getElem?_getD, List.getElem?_eq_getElem hj]
    rw [hgd] at hPj
    have hvj : v ∈ L.get ⟨j, hj⟩ := by simpa using hPj
    exact layer_unique hnd hj hlt hvj hmem

/-! ### Theorems: `build_levels` loop invariant preservation -/

theorem flat_length_le {g : Graph} {st : BLState} (hinv : BLInv g st) :
    (flatBL st).length ≤ g.nodes.length :=
  (List.subperm_of_subset hinv.flat_nodup
    (fun a ha => hinv.flat_sub a ha)).length_le

/-- Placing a fresh node `x` (positive in-degree, hence never placed) into
layer `i` of a levels list carrying the same aliases as `st`, while
enqueueing it and giving it alias count `c`, preserves the invariant. -/
theorem place_inv {g : Graph} {st : BLState} {x : String} {dnew : Int}
    {L' : List (List String)} {i : Nat} {c : Nat}
    (hinv : BLInv g st) (hx : x ∈ g.nodes)
    (hxpos : 0 < st.indeg x) (hdnew : dnew ≤ 0) (hc : c = 1)
    (hflatL' : L'.flatten = flatBL st) (hi : i < L'.length) :
    BLInv g ⟨upd st.indeg x dnew, upd st.cnt x c,
      L'.set i ((L'.getD i []) ++ [x]), st.queue ++ [x]⟩ ∧
    (flatBL ⟨upd st.indeg x dnew, upd st.cnt x c,
      L'.set i ((L'.getD i []) ++ [x]), st.queue ++ [x]⟩).length
      = (flatBL st).length + 1 := by
  have hxflat : x ∉ flatBL st := hinv.indeg_pos_unplaced x hxpos
  have hperm0 := flatten_set_perm hi x
  have hperm : List.Perm ((L'.set i ((L'.getD i []) ++ [x])).flatten) (x :: flatBL st) := by
    rw [hflatL'] at hperm0
    exact hperm0
  have hmem : ∀ a, a ∈ (L'.set i ((L'.getD i []) ++ [x])).flatten ↔
      (a = x ∨ a ∈ flatBL st) := by
    intro a
    rw [hperm.mem_iff]
    simp
  have hxqueue : x ∉ st.queue := fun hq => hxflat (hinv.queue_sub x hq)
  refine ⟨⟨?_, ?_, ?_, ?_, ?_, ?_, ?_, ?_⟩, ?_⟩
  all_goals dsimp only [flatBL]
  · -- levels_ne
    intro hL
    have : (L'.set i ((L'.getD i []) ++ [x])).length = 0 := by rw [hL]; rfl
    rw [List.length_set] at this
    omega
  · -- flat_nodup
    rw [hperm.nodup_iff]
    exact List.nodup_cons.mpr ⟨hxflat, hinv.flat_nodup⟩
  · -- flat_sub
    intro a ha
    rcases (hmem a).mp ha with rfl | ha2
    · exact hx
    · exact hinv.flat_sub a ha2
  · -- cnt_eq
    intro v
    by_cases hv : v = x
    · subst hv
      rw [upd_same]
      have hvmem : v ∈ (L'.set i ((L'.getD i []) ++ [v])).flatten := (hmem v).mpr (Or.inl rfl)
      rw [if_pos hvmem, hc]
    · rw [upd_ne _ _ _ _ hv, hinv.cnt_eq v]
      have : (v ∈ (L'.set i ((L'.getD i []) ++ [x])).flatten) ↔ v ∈ flatBL st := by
        rw [hmem v]
        simp [hv]
      by_cases hvf : v ∈ flatBL st
      · rw [if_pos hvf, if_pos (this.mpr hvf)]
      · rw [if_neg hvf, if_neg (fun hc => hvf (this.mp hc))]
  · -- indeg_pos_unplaced
    intro v hvpos
    by_cases hv : v = x
    · subst hv
      rw [upd_same] at hvpos
      omega
    · rw [upd_ne _ _ _ _ hv] at hvpos
      intro hvf
      rcases (hmem v).mp hvf with rfl | hvf2
      · exact hv rfl
      · exact hinv.indeg_pos_unplaced v hvpos hvf2
  · -- unplaced_indeg_pos
    intro v hvn hvf
    have hvx : v ≠ x := fun he => hvf ((hmem v).mpr (Or.inl he))
    have hvf2 : v ∉ flatBL st := fun hc => hvf ((hmem v).mpr (Or.inr hc))
    rw [upd_ne _ _ _ _ hvx]
    exact hinv.unplaced_indeg_pos v hvn hvf2
  · -- queue_sub
    intro v hv
    rcases List.mem_append.mp hv with hv | hv
    · exact (hmem v).mpr (Or.inr (hinv.queue_sub v hv))
    · simp only [List.mem_singleton] at hv
      subst hv
      exact (hmem v).mpr (Or.inl rfl)
  · -- queue_nodup
    rw [List.nodup_append]
    exact ⟨hinv.queue_nodup, List.nodup_singleton x,
      fun v hv hvx => by
        simp only [List.mem_singleton] at hvx
        subst hvx
        exact hxqueue hv⟩
  · -- length
    have := hperm.length_eq
    simp only [List.length_cons] at this
    simpa [flatBL] using this

theorem stepChild_inv {g : Graph} {cur : String} {st : BLState} {child : String}
    (hinv : BLInv g st) (hchild : child ∈ g.nodes) :
    BLInv g (stepChild cur st child) ∧
    ∃ k : Nat, (stepChild cur st child).queue.length = st.queue.length + k ∧
      (flatBL (stepChild cur st child)).length = (flatBL st).length + k := by
  by_cases hd : st.indeg child - 1 = 0
  · -- the child's in-degree just reached zero: it is placed and enqueued
    have hpos : 0 < st.indeg child := by omega
    have hnf : child ∉ flatBL st := hinv.indeg_pos_unplaced child hpos
    have hk0 : st.cnt child = 0 := by rw [hinv.cnt_eq child, if_neg hnf]
    have hmax := maxIdxWith_lt_length hinv.levels_ne cur
    by_cases hpad : st.levels.length ≤ maxIdxWith st.levels cur + 1
    · have hstep : stepChild cur st child = ⟨upd st.indeg child (st.indeg child - 1),
          upd st.cnt child (st.cnt child + 1),
          (st.levels ++ [[]]).set (maxIdxWith st.levels cur + 1)
            (((st.levels ++ [[]]).getD (maxIdxWith st.levels cur + 1) []) ++ [child]),
          st.queue ++ [child]⟩ := by
        simp only [stepChild]
        rw [if_pos hd, if_pos hk0, if_pos hpad]
      have hflatL' : (st.levels ++ [[]]).flatten = flatBL st := by
        simp [flatBL]
      have hi : maxIdxWith st.levels cur + 1 < (st.levels ++ [[]]).length := by
        rw [List.length_append]
        simp only [List.length_singleton]
        omega
      have hplace := @place_inv g st child (st.indeg child - 1) (st.levels ++ [[]])
        (maxIdxWith st.levels cur + 1) (st.cnt child + 1) hinv hchild hpos
        (by omega) (by omega) hflatL' hi
      rw [hstep]
      exact ⟨hplace.1, 1, by simp, hplace.2⟩
    · have hstep : stepChild cur st child = ⟨upd st.indeg child (st.indeg child - 1),
          upd st.cnt child (st.cnt child + 1),
          st.levels.set (maxIdxWith st.levels cur + 1)
            ((st.levels.getD (maxIdxWith st.levels cur + 1) []) ++ [child]),
          st.queue ++ [child]⟩ := by
        simp only [stepChild]
        rw [if_pos hd, if_pos hk0, if_neg hpad]
      have hi : maxIdxWith st.levels cur + 1 < st.levels.length := by omega
      have hplace := @place_inv g st child (st.indeg child - 1) st.levels
        (maxIdxWith st.levels cur + 1) (st.cnt child + 1) hinv hchild hpos
        (by omega) (by omega) rfl hi
      rw [hstep]
      exact ⟨hplace.1, 1, by simp, hplace.2⟩
  · -- plain decrement
    have hstep : stepChild cur st child
        = ⟨upd st.indeg child (st.indeg child - 1), st.cnt, st.levels, st.queue⟩ := by
      simp only [stepChild]
      rw [if_neg hd]
    rw [hstep]
    refine ⟨⟨hinv.levels_ne, hinv.flat_nodup, hinv.flat_sub, hinv.cnt_eq, ?_, ?_,
      hinv.queue_sub, hinv.queue_nodup⟩, 0, by simp, by simp [flatBL]⟩
    · intro v hvpos
      dsimp only at hvpos
      by_cases hv : v = child
      · subst hv
        rw [upd_same] at hvpos
        exact hinv.indeg_pos_unplaced v (by omega)
      · rw [upd_ne _ _ _ _ hv] at hvpos
        exact hinv.indeg_pos_unplaced v hvpos
    · intro v hvn hvf
      dsimp only [flatBL] at hvf ⊢
      by_cases hv : v = child
      · subst hv
        rw [upd_same]
        have := hinv.unplaced_indeg_pos v hvn hvf
        omega
      · rw [upd_ne _ _ _ _ hv]
        exact hinv.unplaced_indeg_pos v hvn hvf

theorem foldl_stepChild_inv {g : Graph} {cur : String} :
    ∀ (cs : List String) (st : BLState), BLInv g st → (∀ c ∈ cs, c ∈ g.nodes) →
      BLInv g (cs.foldl (stepChild cur) st) ∧
      ∃ k : Nat, (cs.foldl (stepChild cur) st).queue.length = st.queue.length + k ∧
        (flatBL (cs.foldl (stepChild cur) st)).length = (flatBL st).length + k := by
  intro cs
  induction cs with
  | nil =>
      intro st hinv _
      exact ⟨hinv, 0, by simp, by simp⟩
  | cons c rest ih =>
      intro st hinv hcs
      simp only [List.foldl_cons]
      obtain ⟨hinv1, k1, hq1, hf1⟩ := stepChild_inv hinv (hcs c (by simp))
      obtain ⟨hinv2, k2, hq2, hf2⟩ :=
        ih (stepChild cur st c) hinv1 (fun x hx => hcs x (by simp [hx]))
      exact ⟨hinv2, k1 + k2, by omega, by omega⟩

theorem stepBreak_inv {g : Graph} {st : BLState} (hinv : BLInv g st) :
    BLInv g (stepBreak g st) ∧
    ∃ k : Nat, (stepBreak g st).queue.length = st.queue.length + k ∧
      (flatBL (stepBreak g st)).length = (flatBL st).length + k := by
  unfold stepBreak
  by_cases hg : st.queue = [] ∧ g.nodes.any (fun v => decide (0 < st.indeg v)) = true
  · rw [if_pos hg]
    cases hfind : g.nodes.find? (fun v => decide (0 < st.indeg v)) with
    | none => exact ⟨hinv, 0, rfl, rfl⟩
    | some stuck =>
        have hmemn : stuck ∈ g.nodes := List.mem_of_find?_eq_some hfind
        have hp : 0 < st.indeg stuck := by
          have hp0 := List.find?_some hfind
          simpa using hp0
        have hnf : stuck ∉ flatBL st := hinv.indeg_pos_unplaced stuck hp
        have hc0 : st.cnt stuck = 0 := by rw [hinv.cnt_eq stuck, if_neg hnf]
        have hqn : stuck ∉ st.queue := fun hc => hnf (hinv.queue_sub stuck hc)
        dsimp only
        rw [if_pos hc0, if_pos (rfl : (1 : Nat) = 1)]
        have hflat' : flatBL ⟨upd st.indeg stuck 0, upd st.cnt stuck 1,
            st.levels ++ [[stuck]], st.queue ++ [stuck]⟩ = flatBL st ++ [stuck] := by
          simp [flatBL]
        have hmemf : ∀ a, a ∈ flatBL st ++ [stuck] ↔ a ∈ flatBL st ∨ a = stuck := by
          intro a
          simp
        refine ⟨⟨?_, ?_, ?_, ?_, ?_, ?_, ?_, ?_⟩, 1, by simp, ?_⟩
        · dsimp only
          simp
        · rw [hflat']
          rw [List.nodup_append]
          exact ⟨hinv.flat_nodup, List.nodup_singleton stuck,
            fun v hv hvx => by
              simp only [List.mem_singleton] at hvx
              subst hvx
              exact hnf hv⟩
        · rw [hflat']
          intro a ha
          rcases (hmemf a).mp ha with ha | rfl
          · exact hinv.flat_sub a ha
          · exact hmemn
        · intro v
          rw [hflat']
          dsimp only
          by_cases hv : v = stuck
          · subst hv
            rw [upd_same, if_pos ((hmemf v).mpr (Or.inr rfl))]
          · rw [upd_ne _ _ _ _ hv, hinv.cnt_eq v]
            by_cases hvf : v ∈ flatBL st
            · rw [if_pos hvf, if_pos ((hmemf v).mpr (Or.inl hvf))]
            · rw [if_neg hvf, if_neg (fun hc => by
                rcases (hmemf v).mp hc with hc | hc
                · exact hvf hc
                · exact hv hc)]
        · intro v hvpos
          rw [hflat']
          dsimp only at hvpos
          by_cases hv : v = stuck
          · subst hv
            rw [upd_same] at hvpos
            omega
          · rw [upd_ne _ _ _ _ hv] at hvpos
            intro hvf
            rcases (hmemf v).mp hvf with hvf | hvf
            · exact hinv.indeg_pos_unplaced v hvpos hvf
            · exact hv hvf
        · intro v hvn hvf
          rw [hflat'] at hvf
          dsimp only
          have hvx : v ≠ stuck := fun he => hvf ((hmemf v).mpr (Or.inr he))
          have hvf2 : v ∉ flatBL st := fun hc => hvf ((hmemf v).mpr (Or.inl hc))
          rw [upd_ne _ _ _ _ hvx]
          exact hinv.unplaced_indeg_pos v hvn hvf2
        · intro v hv
          rw [hflat']
          dsimp only at hv
          rcases List.mem_append.mp hv with hv | hv
          · exact (hmemf v).mpr (Or.inl (hinv.queue_sub v hv))
          · simp only [List.mem_singleton] at hv
            subst hv
            exact (hmemf v).mpr (Or.inr rfl)
        · dsimp only
          rw [List.nodup_append]
          exact ⟨hinv.queue_nodup, List.nodup_singleton stuck,
            fun v hv hvx => by
              simp only [List.mem_singleton] at hvx
              subst hvx
              exact hqn hv⟩
        · rw [hflat']
          simp
  · rw [if_neg hg]
    exact ⟨hinv, 0, rfl, rfl⟩

theorem stepBL_inv {g : Graph} {cur : String} {st : BLState}
    (hinv : BLInv g st) (hT : ∀ e ∈ g.edges, e.2 ∈ g.nodes) :
    BLInv g (stepBL g cur st) ∧
    ∃ k : Nat, (stepBL g cur st).queue.length = st.queue.length + k ∧
      (flatBL (stepBL g cur st)).length = (flatBL st).length + k := by
  unfold stepBL
  have hsucc : ∀ c ∈ successors g (canonOf cur), c ∈ g.nodes := by
    intro c hc
    simp only [successors, List.mem_map, List.mem_filter] at hc
    obtain ⟨e, ⟨he, _⟩, rfl⟩ := hc
    exact hT e he
  obtain ⟨hinv1, k1, hq1, hf1⟩ := foldl_stepChild_inv _ st hinv hsucc
  obtain ⟨hinv2, k2, hq2, hf2⟩ := stepBreak_inv hinv1
  exact ⟨hinv2, k1 + k2, by omega, by omega⟩

theorem BLInv_pop {g : Graph} {st : BLState} {cur : String} {rest : List String}
    (hinv : BLInv g st) (hq : st.queue = cur :: rest) :
    BLInv g ⟨st.indeg, st.cnt, st.levels, rest⟩ := by
  refine ⟨hinv.levels_ne, hinv.flat_nodup, hinv.flat_sub, hinv.cnt_eq,
    hinv.indeg_pos_unplaced, hinv.unplaced_indeg_pos, ?_, ?_⟩
  · intro v hv
    exact hinv.queue_sub v (by rw [hq]; exact List.mem_cons_of_mem cur hv)
  · have := hinv.queue_nodup
    rw [hq] at this
    exact this.of_cons

theorem loopBL_sound {g : Graph} (hT : ∀ e ∈ g.edges, e.2 ∈ g.nodes) :
    ∀ (fuel : Nat) (st : BLState) (res : List (List String)),
      BLInv g st → loopBL g fuel st = some res →
      res.flatten.Nodup ∧ ∀ a ∈ res.flatten, a ∈ g.nodes := by
  intro fuel
  induction fuel with
  | zero =>
      intro st res hinv h
      simp only [loopBL] at h
      cases hq : st.queue with
      | nil =>
          rw [hq] at h
          simp only at h
          have h' := Option.some.inj h
          subst h'
          exact ⟨hinv.flat_nodup, hinv.flat_sub⟩
      | cons cur rest =>
          rw [hq] at h
          exact absurd h (by simp)
  | succ fuel ih =>
      intro st res hinv h
      simp only [loopBL] at h
      cases hq : st.queue with
      | nil =>
          rw [hq] at h
          simp only at h
          have h' := Option.some.inj h
          subst h'
          exact ⟨hinv.flat_nodup, hinv.flat_sub⟩
      | cons cur rest =>
          rw [hq] at h
          simp only at h
          exact ih _ res (stepBL_inv (BLInv_pop hinv hq) hT).1 h

theorem loopBL_term {g : Graph} (hT : ∀ e ∈ g.edges, e.2 ∈ g.nodes) :
    ∀ (fuel : Nat) (st : BLState), BLInv g st →
      st.queue.length + (g.nodes.length - (flatBL st).length) < fuel →
      (loopBL g fuel st).isSome = true := by
  intro fuel
  induction fuel with
  | zero => intro st hinv hm; omega
  | succ fuel ih =>
      intro st hinv hm
      simp only [loopBL]
      cases hq : st.queue with
      | nil => simp
      | cons cur rest =>
          have hpop := BLInv_pop hinv hq
          obtain ⟨hinv2, k, hq2, hf2⟩ :=
            @stepBL_inv g cur ⟨st.indeg, st.cnt, st.levels, rest⟩ hpop hT
          apply ih _ hinv2
          have hble := flat_length_le hinv2
          have hfp : flatBL ⟨st.indeg, st.cnt, st.levels, rest⟩ = flatBL st := rfl
          rw [hfp] at hf2
          have hdq : (⟨st.indeg, st.cnt, st.levels, rest⟩ : BLState).queue.length
              = rest.length := rfl
          rw [hdq] at hq2
          have hql : st.queue.length = rest.length + 1 := by rw [hq]; rfl
          have hfle := flat_length_le hinv
          rw [hq2, hf2]
          rw [hf2] at hble
          omega

theorem initBL_inv {g : Graph} (hN : g.nodes.Nodup) : BLInv g (initBL g) := by
  have hflat : flatBL (initBL g)
      = g.nodes.filter (fun v => decide ((inDeg g v : Int) = 0)) := by
    simp [initBL, flatBL]
  have hmem0 : ∀ v, v ∈ flatBL (initBL g) ↔
      (v ∈ g.nodes ∧ (inDeg g v : Int) = 0) := by
    intro v
    rw [hflat]
    simp [List.mem_filter]
  refine ⟨?_, ?_, ?_, ?_, ?_, ?_, ?_, ?_⟩
  · simp [initBL]
  · rw [hflat]
    exact hN.filter _
  · intro a ha
    exact ((hmem0 a).mp ha).1
  · intro v
    show (if v ∈ g.nodes.filter (fun v => decide ((inDeg g v : Int) = 0)) then 1 else 0)
        = if v ∈ flatBL (initBL g) then 1 else 0
    rw [hflat]
  · intro v hvpos
    rw [hmem0 v]
    intro hc
    dsimp only [initBL] at hvpos
    omega
  · intro v hvn hvf
    rw [hmem0 v] at hvf
    dsimp only [initBL]
    have : ¬ ((inDeg g v : Int) = 0) := fun hc => hvf ⟨hvn, hc⟩
    omega
  · intro v hv
    rw [hmem0 v]
    dsimp only [initBL] at hv
    rw [List.mem_filter] at hv
    exact ⟨hv.1, of_decide_eq_true hv.2⟩
  · dsimp only [initBL]
    exact hN.filter _

/-! ### Theorems: helpers for the acyclic layering claim -/

theorem mem_successors_iff {g : Graph} {v c : String} :
    c ∈ successors g v ↔ (v, c) ∈ g.edges := by
  simp only [successors, List.mem_map, List.mem_filter]
  constructor
  · rintro ⟨e, ⟨he, hf⟩, rfl⟩
    have h1 : e.1 = v := by simpa using hf
    have : e = (v, e.2) := by
      rw [← h1]
    rw [← this]
    exact he
  · intro h
    exact ⟨(v, c), ⟨h, by simp⟩, rfl⟩

theorem mem_preds_iff {g : Graph} {v s : String} :
    s ∈ preds g v ↔ (s, v) ∈ g.edges := by
  simp only [preds, List.mem_map, List.mem_filter]
  constructor
  · rintro ⟨e, ⟨he, hf⟩, rfl⟩
    have h2 : e.2 = v := by simpa using hf
    have : e = (e.1, v) := by
      rw [← h2]
    rw [← this]
    exact he
  · intro h
    exact ⟨(s, v), ⟨h, by simp⟩, rfl⟩

theorem preds_nodup {g : Graph} (hE : g.edges.Nodup) (v : String) :
    (preds g v).Nodup := by
  apply (hE.filter _).map_on
  intro x hx y hy hxy
  rw [List.mem_filter] at hx hy
  have hx2 : x.2 = v := by simpa using hx.2
  have hy2 : y.2 = v := by simpa using hy.2
  have : x = (x.1, x.2) := rfl
  calc x = (x.1, x.2) := rfl
    _ = (y.1, y.2) := by rw [hxy, hx2, hy2]
    _ = y := rfl

theorem successors_nodup {g : Graph} (hE : g.edges.Nodup) (v : String) :
    (successors g v).Nodup := by
  apply (hE.filter _).map_on
  intro x hx y hy hxy
  rw [List.mem_filter] at hx hy
  have hx1 : x.1 = v := by simpa using hx.2
  have hy1 : y.1 = v := by simpa using hy.2
  calc x = (x.1, x.2) := rfl
    _ = (y.1, y.2) := by rw [hxy, hx1, hy1]
    _ = y := rfl

theorem inDeg_eq_preds_length (g : Graph) (v : String) :
    inDeg g v = (preds g v).length := by
  simp [inDeg, preds]

theorem canonOf_eq_self {v : String} (h : (patMatch v).isSome) : canonOf v = v := by
  obtain ⟨pr, hpr⟩ := Option.isSome_iff_exists.mp h
  rcases pr with ⟨α, n⟩
  obtain ⟨a, d, hs, hane, hdne, ha, hd, _⟩ := patMatch_of_NameForm (NameForm_of_patMatch hpr)
  have hall : ∀ c ∈ v.data, c ≠ '_' := by
    intro c hc
    rw [hs] at hc
    rcases List.mem_append.mp hc with hc | hc
    · have hr := ha c hc
      rw [isAlpha_iff] at hr
      intro he
      subst he
      revert hr
      decide
    · have hr := hd c hc
      rw [isDigit_iff] at hr
      intro he
      subst he
      revert hr
      decide
  apply string_eq_of_data
  show v.data.takeWhile (fun c => decide (c ≠ '_')) = v.data
  rw [List.takeWhile_eq_self_iff]
  intro c hc
  simpa using hall c hc

/-- Splitting a filter count at one distinguished element. -/
theorem length_filter_split {l : List String} {x : String} {p : String → Bool}
    (hnd : l.Nodup) (hx : x ∈ l) :
    (l.filter p).length
      = (l.filter (fun s => p s && !decide (s = x))).length
        + (if p x then 1 else 0) := by
  induction l with
  | nil => cases hx
  | cons a rest ih =>
      rw [List.nodup_cons] at hnd
      by_cases hax : a = x
      · subst hax
        have hnx : ∀ s ∈ rest, (p s && !decide (s = a)) = p s := by
          intro s hs
          have hsa : s ≠ a := fun he => hnd.1 (he ▸ hs)
          simp [hsa]
        simp only [List.filter_cons, List.filter_congr hnx]
        by_cases hpa : p a = true
        · simp [hpa]
        · simp only [Bool.not_eq_true] at hpa
          rw [hpa]
          norm_num
      · have hxr : x ∈ rest := by
          rcases List.mem_cons.mp hx with h | h
          · exact absurd h.symm hax
          · exact h
        have hrec := ih hnd.2 hxr
        simp only [List.filter_cons]
        have hqa : (p a && !decide (a = x)) = p a := by simp [hax]
        rw [hqa]
        by_cases hpa : p a = true
        · rw [if_pos hpa, if_pos hpa]
          simp only [List.length_cons]
          omega
        · have hpa2 : ¬ (p a = true) := hpa
          rw [if_neg hpa2, if_neg hpa2]
          exact hrec

/-- If a filter misses exactly one element of a duplicate-free list and the
distinguished element `x` fails the predicate, every other element passes. -/
theorem all_but_one {l : List String} {x : String} {p : String → Bool}
    (hnd : l.Nodup) (hx : x ∈ l) (hpx : p x = false)
    (hlen : (l.filter p).length + 1 = l.length) :
    ∀ s ∈ l, s ≠ x → p s = true := by
  have hperm := List.filter_append_perm p l
  have hlen2 : (l.filter p).length + (l.filter (fun s => !p s)).length = l.length := by
    have := hperm.length_eq
    simpa using this
  have hone : (l.filter (fun s => !p s)).length = 1 := by omega
  obtain ⟨y, hy⟩ := List.length_eq_one.mp hone
  have hxy : x ∈ l.filter (fun s => !p s) := by
    rw [List.mem_filter]
    exact ⟨hx, by simp [hpx]⟩
  rw [hy] at hxy
  simp only [List.mem_singleton] at hxy
  subst hxy
  intro s hs hsx
  cases hps : p s with
  | true => rfl
  | false =>
      exfalso
      have hsy : s ∈ l.filter (fun s => !p s) := by
        rw [List.mem_filter]
        exact ⟨hs, by simp [hps]⟩
      rw [hy] at hsy
      simp only [List.mem_singleton] at hsy
      exact hsx hsy

/-- If the filter count is short of the full length, some element fails. -/
theorem exists_not_of_filter_lt {l : List String} {p : String → Bool}
    (h : (l.filter p).length < l.length) : ∃ s ∈ l, p s = false := by
  by_contra hc
  push_neg at hc
  have : ∀ s ∈ l, p s = true := by
    intro s hs
    cases hps : p s with
    | true => rfl
    | false => exact absurd hps (hc s hs)
  rw [List.filter_eq_self.mpr this] at h
  omega

/-- Any nonempty list admits an element minimizing a `Nat`-valued rank. -/
theorem exists_rank_min {l : List String} (hne : l ≠ []) (rank : String → Nat) :
    ∃ m ∈ l, ∀ y ∈ l, rank m ≤ rank y := by
  induction l with
  | nil => exact absurd rfl hne
  | cons a rest ih =>
      by_cases hre : rest = []
      · subst hre
        refine ⟨a, by simp, ?_⟩
        intro y hy
        simp only [List.mem_singleton] at hy
        subst hy
        exact Nat.le_refl _
      · obtain ⟨m, hm, hmin⟩ := ih hre
        by_cases hcmp : rank a ≤ rank m
        · refine ⟨a, by simp, ?_⟩
          intro y hy
          rcases List.mem_cons.mp hy with rfl | hy
          · exact Nat.le_refl _
          · exact Nat.le_trans hcmp (hmin y hy)
        · refine ⟨m, List.mem_cons_of_mem a hm, ?_⟩
          intro y hy
          rcases List.mem_cons.mp hy with rfl | hy
          · omega
          · exact hmin y hy

theorem getD_eq_getElem_of_lt {L : List (List String)} {i : Nat} (hi : i < L.length) :
    L.getD i [] = L[i] := by
  simp [List.getD_eq_getElem?_getD, List.getElem?_eq_getElem hi]

theorem layerIdx_le_iff_mem {L : List (List String)} {v : String} {j : Nat}
    (hj : j < L.length) (hv : v ∈ L[j]) : layerIdx L v ≤ j := by
  by_contra hc
  push_neg at hc
  exact layerIdx_not_mem_lt hj hc (by simpa using hv)

/-- Inserting a fresh alias into layer `i` does not move any placed alias. -/
theorem layerIdx_set_stable {L : List (List String)} {i : Nat} {x v : String}
    (hi : i < L.length) (hx : x ∉ L.flatten) (hv : v ∈ L.flatten) :
    layerIdx (L.set i ((L.getD i []) ++ [x])) v = layerIdx L v := by
  have hj0 : layerIdx L v < L.length := layerIdx_lt_length hv
  have hmem := layerIdx_mem hv
  have hvx : v ≠ x := fun he => hx (he ▸ hv)
  have hlen : (L.set i ((L.getD i []) ++ [x])).length = L.length := by simp
  have hj0' : layerIdx L v < (L.set i ((L.getD i []) ++ [x])).length := by
    rw [hlen]
    exact hj0
  apply (List.findIdx_eq hj0').mpr
  constructor
  · by_cases hij : i = layerIdx L v
    · subst hij
      rw [List.getElem_set_self hj0']
      simp only [decide_eq_true_eq]
      rw [List.mem_append]
      left
      rw [getD_eq_getElem_of_lt hi]
      simpa using hmem
    · rw [List.getElem_set_ne hij]
      simpa using hmem
  · intro j hji
    have hjlt : j < L.length := by omega
    by_cases hij : i = j
    · subst hij
      have hset : i < (L.set i ((L.getD i []) ++ [x])).length := by
        rw [hlen]
        exact hjlt
      rw [List.getElem_set_self hset]
      apply decide_eq_false
      rw [List.mem_append]
      push_neg
      constructor
      · rw [getD_eq_getElem_of_lt hjlt]
        have := layerIdx_not_mem_lt hjlt hji
        simpa using this
      · simp [hvx]
    · rw [List.getElem_set_ne hij]
      have := layerIdx_not_mem_lt hjlt hji
      simpa using this

/-- The fresh alias inserted into layer `i` gets layer index exactly `i`. -/
theorem layerIdx_set_new {L : List (List String)} {i : Nat} {x : String}
    (hi : i < L.length) (hx : x ∉ L.flatten) :
    layerIdx (L.set i ((L.getD i []) ++ [x])) x = i := by
  have hlen : (L.set i ((L.getD i []) ++ [x])).length = L.length := by simp
  have hi' : i < (L.set i ((L.getD i []) ++ [x])).length := by
    rw [hlen]
    exact hi
  apply (List.findIdx_eq hi').mpr
  constructor
  · rw [List.getElem_set_self hi']
    simp
  · intro j hji
    have hjlt : j < L.length := by omega
    rw [List.getElem_set_ne (by omega)]
    have : x ∉ L[j] := by
      intro hc
      exact hx (List.mem_flatten.mpr ⟨L[j], by simp [List.mem_iff_getElem]; exact ⟨j, hjlt, rfl⟩, hc⟩)
    simpa using this

/-- Appending an empty layer does not move any placed alias. -/
theorem layerIdx_pad {L : List (List String)} {v : String} (hv : v ∈ L.flatten) :
    layerIdx (L ++ [[]]) v = layerIdx L v := by
  have hlt : List.findIdx (fun l => decide (v ∈ l)) L < L.length := layerIdx_lt_length hv
  show (L ++ [[]]).findIdx (fun l => decide (v ∈ l)) = layerIdx L v
  rw [List.findIdx_append, if_pos hlt]
  rfl

theorem layerIdx_singleton {l : List String} {v : String} (hv : v ∈ l) :
    layerIdx [l] v = 0 := by
  show List.findIdx (fun l => decide (v ∈ l)) [l] = 0
  rw [List.findIdx_cons]
  simp [hv]

theorem flatBL_initBL {g : Graph} :
    flatBL (initBL g) = g.nodes.filter (fun v => decide ((inDeg g v : Int) = 0)) := by
  simp [initBL, flatBL]

theorem initBL_invA {g : Graph} (hWF : WF g) : BLInvA g (initBL g) := by
  obtain ⟨hN, hST, hE, hSL, hPat⟩ := hWF
  have hbase := initBL_inv (g := g) hN
  have hq0 : (initBL g).queue = g.nodes.filter (fun v => decide ((inDeg g v : Int) = 0)) := rfl
  have hl0 : (initBL g).levels = [g.nodes.filter (fun v => decide ((inDeg g v : Int) = 0))] := rfl
  have hpos0 : ∀ v ∈ (initBL g).queue, layerIdx (initBL g).levels v = 0 := by
    intro v hv
    rw [hq0] at hv
    rw [hl0]
    exact layerIdx_singleton hv
  refine ⟨hbase, ?_, ?_, ?_, ?_, ?_⟩
  · rw [List.pairwise_iff_getElem]
    intro i j hi hj hij
    have hmi : (initBL g).queue[i] ∈ (initBL g).queue := List.getElem_mem hi
    have hmj : (initBL g).queue[j] ∈ (initBL g).queue := List.getElem_mem hj
    rw [hpos0 _ hmi, hpos0 _ hmj]
  · intro v hv
    rw [hpos0 v hv, hl0]
    simp
  · intro s hs hsq
    exfalso
    rw [flatBL_initBL] at hs
    rw [hq0] at hsq
    exact hsq hs
  · intro e he h2f
    exfalso
    rw [flatBL_initBL, List.mem_filter] at h2f
    have hz : (inDeg g e.2 : Int) = 0 := of_decide_eq_true h2f.2
    have hz2 : inDeg g e.2 = 0 := by omega
    rw [inDeg_eq_preds_length] at hz2
    have hnil : preds g e.2 = [] := List.eq_nil_of_length_eq_zero hz2
    have : e.1 ∈ preds g e.2 := mem_preds_iff.mpr (by
      rw [show (e.1, e.2) = e from rfl]
      exact he)
    rw [hnil] at this
    cases this
  · intro v
    have hfe : (preds g v).filter
        (fun s => decide (s ∈ flatBL (initBL g)) && !decide (s ∈ (initBL g).queue)) = [] := by
      rw [List.filter_eq_nil_iff]
      intro s hs
      rw [flatBL_initBL, hq0]
      by_cases hsf : s ∈ g.nodes.filter (fun v => decide ((inDeg g v : Int) = 0)) <;>
        simp [hsf]
    rw [hfe]
    show (inDeg g v : Int) = (inDeg g v : Int) - 0
    omega

theorem invA_pop_entry {g : Graph} {st : BLState} {cur : String} {rest : List String}
    (hA : BLInvA g st) (hq : st.queue = cur :: rest) :
    BLInvM g cur [] ⟨st.indeg, st.cnt, st.levels, rest⟩ := by
  have hcurq : cur ∈ st.queue := by rw [hq]; simp
  have hcurf : cur ∈ flatBL st := hA.base.queue_sub cur hcurq
  have hcurrest : cur ∉ rest := by
    have hnd := hA.base.queue_nodup
    rw [hq] at hnd
    exact (List.nodup_cons.mp hnd).1
  have hchain := hA.qchain
  rw [hq] at hchain
  have hheadle : ∀ v ∈ rest, layerIdx st.levels cur ≤ layerIdx st.levels v :=
    (List.pairwise_cons.mp hchain).1
  have hqlen : st.levels.length ≤ layerIdx st.levels cur + 2 := hA.qdepth cur hcurq
  refine ⟨BLInv_pop hA.base hq, hcurf, hcurrest, (List.pairwise_cons.mp hchain).2,
    ?_, hqlen, ?_, ?_, ?_, ?_⟩
  · dsimp only
    intro v hv
    refine ⟨hheadle v hv, ?_⟩
    have hvq : v ∈ st.queue := by
      rw [hq]
      exact List.mem_cons_of_mem cur hv
    have hvf : v ∈ flatBL st := hA.base.queue_sub v hvq
    have := layerIdx_lt_length (L := st.levels) (by
      exact List.mem_flatten.mp hvf |> fun h => List.mem_flatten.mpr h)
    have hvlt : layerIdx st.levels v < st.levels.length := layerIdx_lt_length hvf
    omega
  · intro s hsf hsq v hv
    by_cases hsc : s = cur
    · subst hsc
      exact hheadle v hv
    · have hsq2 : s ∉ st.queue := by
        rw [hq]
        intro hc
        rcases List.mem_cons.mp hc with hc | hc
        · exact hsc hc
        · exact hsq hc
      exact hA.popped_le s hsf hsq2 v (by
        rw [hq]
        exact List.mem_cons_of_mem cur hv)
  · intro s hsf hsq
    by_cases hsc : s = cur
    · subst hsc
      exact Nat.le_refl _
    · have hsq2 : s ∉ st.queue := by
        rw [hq]
        intro hc
        rcases List.mem_cons.mp hc with hc | hc
        · exact hsc hc
        · exact hsq hc
      exact hA.popped_le s hsf hsq2 cur hcurq
  · intro e he h2f
    obtain ⟨h1f, hlt, h1q⟩ := hA.edge_ok e he h2f
    refine ⟨h1f, hlt, ?_⟩
    intro hc
    apply h1q
    rw [hq]
    exact List.mem_cons_of_mem cur hc
  · intro v
    have := hA.indeg_eq v
    dsimp only
    rw [this]
    have hcong : (preds g v).filter
        (fun s => decide (s ∈ flatBL st) && !decide (s ∈ st.queue))
        = (preds g v).filter
        (fun s => decide (s ∈ flatBL ⟨st.indeg, st.cnt, st.levels, rest⟩)
          && !decide (s ∈ rest) && !decide (s = cur)) := by
      apply List.filter_congr
      intro s hs
      have hfr : flatBL ⟨st.indeg, st.cnt, st.levels, rest⟩ = flatBL st := rfl
      rw [hfr, hq]
      simp only [List.mem_cons, Bool.decide_or, Bool.not_or]
      cases hd1 : decide (s ∈ flatBL st) <;> cases hd2 : decide (s ∈ rest) <;>
        cases hd3 : decide (s = cur) <;> rfl
    rw [hcong]
    simp

/-- Placement case of the inner-loop invariant: when `child`'s in-degree
reaches zero it is placed into layer `layerIdx cur + 1` and enqueued, and
the mid-loop invariant is preserved with `child` marked processed. -/
theorem place_midinv {g : Graph} {cur child : String} {done : List String}
    {st : BLState} {L' : List (List String)} {i : Nat}
    (hE : g.edges.Nodup) (hM : BLInvM g cur done st) (hCN : child ∈ g.nodes)
    (hchild : (cur, child) ∈ g.edges) (hndone : child ∉ done)
    (hd : st.indeg child - 1 = 0)
    (hflatL' : L'.flatten = flatBL st) (hi : i < L'.length)
    (hiq : i = layerIdx st.levels cur + 1)
    (hposL' : ∀ v ∈ flatBL st, layerIdx (L'.set i ((L'.getD i []) ++ [child])) v
      = layerIdx st.levels v)
    (hlenL' : L'.length ≤ layerIdx st.levels cur + 2) :
    BLInvM g cur (done ++ [child])
      ⟨upd st.indeg child (st.indeg child - 1), upd st.cnt child (st.cnt child + 1),
        L'.set i ((L'.getD i []) ++ [child]), st.queue ++ [child]⟩ := by
  have hpos : 0 < st.indeg child := by omega
  have hnf : child ∉ flatBL st := hM.base.indeg_pos_unplaced child hpos
  have hk0 : st.cnt child = 0 := by rw [hM.base.cnt_eq child, if_neg hnf]
  have hxL' : child ∉ L'.flatten := by
    rw [hflatL']
    exact hnf
  have hbase := (@place_inv g st child (st.indeg child - 1) L' i (st.cnt child + 1)
    hM.base hCN hpos (by omega) (by omega) hflatL' hi).1
  have hperm0 := flatten_set_perm hi child
  have hmem : ∀ a, a ∈ (L'.set i ((L'.getD i []) ++ [child])).flatten ↔
      (a = child ∨ a ∈ flatBL st) := by
    intro a
    rw [hperm0.mem_iff]
    rw [hflatL']
    simp
  have hnew : layerIdx (L'.set i ((L'.getD i []) ++ [child])) child = i :=
    layerIdx_set_new hi hxL'
  have hcc : cur ≠ child := fun he => hnf (he ▸ hM.cur_flat)
  have hcurf2 : cur ∈ (L'.set i ((L'.getD i []) ++ [child])).flatten :=
    (hmem cur).mpr (Or.inr hM.cur_flat)
  have hposcur : layerIdx (L'.set i ((L'.getD i []) ++ [child])) cur
      = layerIdx st.levels cur := hposL' cur hM.cur_flat
  have hqsub : ∀ v ∈ st.queue, v ∈ flatBL st := hM.base.queue_sub
  have hqmem : ∀ v, v ∈ st.queue ++ [child] ↔ (v ∈ st.queue ∨ v = child) := by
    intro v
    simp
  have hchq : child ∉ st.queue := fun hc => hnf (hqsub child hc)
  refine ⟨hbase, (hmem cur).mpr (Or.inr hM.cur_flat), ?_, ?_, ?_, ?_, ?_, ?_, ?_, ?_⟩
  · -- cur_notq
    dsimp only
    rw [hqmem cur]
    push_neg
    exact ⟨hM.cur_notq, hcc⟩
  · -- qchain
    dsimp only
    rw [List.pairwise_append]
    refine ⟨?_, by simp, ?_⟩
    · refine hM.qchain.imp_of_mem ?_
      intro a b ha hb hab
      rw [hposL' a (hqsub a ha), hposL' b (hqsub b hb)]
      exact hab
    · intro a ha b hb
      simp only [List.mem_singleton] at hb
      subst hb
      rw [hposL' a (hqsub a ha), hnew, hiq]
      exact (hM.qband a ha).2
  · -- qband
    dsimp only
    intro v hv
    rw [hposcur]
    rcases (hqmem v).mp hv with hv | rfl
    · rw [hposL' v (hqsub v hv)]
      exact hM.qband v hv
    · rw [hnew, hiq]
      omega
  · -- qlen
    dsimp only
    rw [hposcur, List.length_set]
    exact hlenL'
  · -- popped_le
    dsimp only
    intro s hsf hsq v hv
    rcases (hmem s).mp hsf with rfl | hsf2
    · exact absurd ((hqmem s).mpr (Or.inr rfl)) hsq
    · have hsq2 : s ∉ st.queue := fun hc => hsq ((hqmem s).mpr (Or.inl hc))
      rw [hposL' s hsf2]
      rcases (hqmem v).mp hv with hv2 | rfl
      · rw [hposL' v (hqsub v hv2)]
        exact hM.popped_le s hsf2 hsq2 v hv2
      · rw [hnew, hiq]
        have := hM.popped_le_cur s hsf2 hsq2
        omega
  · -- popped_le_cur
    dsimp only
    intro s hsf hsq
    rcases (hmem s).mp hsf with rfl | hsf2
    · exact absurd ((hqmem s).mpr (Or.inr rfl)) hsq
    · have hsq2 : s ∉ st.queue := fun hc => hsq ((hqmem s).mpr (Or.inl hc))
      rw [hposL' s hsf2, hposcur]
      exact hM.popped_le_cur s hsf2 hsq2
  · -- edge_ok
    dsimp only
    intro e he h2f
    rcases (hmem e.2).mp h2f with h2c | h2old
    · -- the freshly placed child: use the in-degree bookkeeping
      have hindeg := hM.indeg_eq child
      rw [if_neg hndone] at hindeg
      have hlen1 : ((preds g child).filter
          (fun s => decide (s ∈ flatBL st) && !decide (s ∈ st.queue)
            && !decide (s = cur))).length + 1 = (preds g child).length := by
        have hle := List.length_filter_le
          (fun s => decide (s ∈ flatBL st) && !decide (s ∈ st.queue)
            && !decide (s = cur)) (preds g child)
        have hID := inDeg_eq_preds_length g child
        omega
      have hall := all_but_one (preds_nodup hE child)
        (mem_preds_iff.mpr hchild) (by simp) hlen1
      have h1p : e.1 ∈ preds g child := by
        apply mem_preds_iff.mpr
        rw [show (e.1, child) = e from by rw [← h2c]]
        exact he
      by_cases h1c : e.1 = cur
      · rw [h1c, h2c]
        refine ⟨hcurf2, ?_, ?_⟩
        · rw [hposcur, hnew, hiq]
          omega
        · rw [hqmem cur]
          push_neg
          exact ⟨hM.cur_notq, hcc⟩
      · have hp := hall e.1 h1p h1c
        simp only [Bool.and_eq_true, Bool.not_eq_true', decide_eq_true_eq,
          decide_eq_false_iff_not] at hp
        obtain ⟨⟨h1f, h1q⟩, _⟩ := hp
        rw [h2c]
        refine ⟨(hmem e.1).mpr (Or.inr h1f), ?_, ?_⟩
        · rw [hposL' e.1 h1f, hnew, hiq]
          have := hM.popped_le_cur e.1 h1f h1q
          omega
        · rw [hqmem e.1]
          push_neg
          exact ⟨h1q, fun hc => hnf (hc ▸ h1f)⟩
    · obtain ⟨h1f, hlt, h1q⟩ := hM.edge_ok e he h2old
      refine ⟨(hmem e.1).mpr (Or.inr h1f), ?_, ?_⟩
      · rw [hposL' e.1 h1f, hposL' e.2 h2old]
        exact hlt
      · rw [hqmem e.1]
        push_neg
        exact ⟨h1q, fun hc => hnf (hc ▸ h1f)⟩
  · -- indeg_eq
    dsimp only [flatBL]
    intro v
    have hcong : (preds g v).filter
        (fun s => decide (s ∈ (L'.set i ((L'.getD i []) ++ [child])).flatten)
          && !decide (s ∈ st.queue ++ [child]) && !decide (s = cur))
        = (preds g v).filter
        (fun s => decide (s ∈ flatBL st) && !decide (s ∈ st.queue)
          && !decide (s = cur)) := by
      apply List.filter_congr
      intro s hs
      by_cases hsch : s = child
      · subst hsch
        have hl : decide (s ∈ (L'.set i ((L'.getD i []) ++ [s])).flatten) = true :=
          decide_eq_true ((hmem s).mpr (Or.inl rfl))
        have hr : decide (s ∈ st.queue ++ [s]) = true := by
          simp
        have hfl : decide (s ∈ flatBL st) = false := by
          simp [hnf]
        rw [hl, hr, hfl]
        simp
      · have hl : decide (s ∈ (L'.set i ((L'.getD i []) ++ [child])).flatten)
            = decide (s ∈ flatBL st) := by
          by_cases hsf : s ∈ flatBL st
          · rw [decide_eq_true ((hmem s).mpr (Or.inr hsf)), decide_eq_true hsf]
          · rw [decide_eq_false (fun hc => by
                rcases (hmem s).mp hc with hc | hc
                · exact hsch hc
                · exact hsf hc),
              decide_eq_false hsf]
        have hr : decide (s ∈ st.queue ++ [child]) = decide (s ∈ st.queue) := by
          simp [hsch]
        rw [hl, hr]
    rw [hcong]
    have hdone2 : ∀ w : String, (w ∈ done ++ [child]) ↔ (w ∈ done ∨ w = child) := by
      intro w
      simp
    by_cases hvch : v = child
    · subst hvch
      rw [upd_same]
      have hindeg := hM.indeg_eq v
      rw [if_neg hndone] at hindeg
      rw [if_pos ((hdone2 v).mpr (Or.inr rfl))]
      omega
    · rw [upd_ne _ _ _ _ hvch]
      have hindeg := hM.indeg_eq v
      by_cases hvd : v ∈ done
      · rw [if_pos hvd] at hindeg
        rw [if_pos ((hdone2 v).mpr (Or.inl hvd))]
        exact hindeg
      · rw [if_neg hvd] at hindeg
        rw [if_neg (fun hc => by
          rcases (hdone2 v).mp hc with hc | hc
          · exact hvd hc
          · exact hvch hc)]
        exact hindeg

theorem stepChild_midinv {g : Graph} {cur child : String} {done : List String}
    {st : BLState}
    (hE : g.edges.Nodup) (hM : BLInvM g cur done st) (hCN : child ∈ g.nodes)
    (hchild : (cur, child) ∈ g.edges) (hndone : child ∉ done) :
    BLInvM g cur (done ++ [child]) (stepChild cur st child) := by
  by_cases hd : st.indeg child - 1 = 0
  · have hpos : 0 < st.indeg child := by omega
    have hnf : child ∉ flatBL st := hM.base.indeg_pos_unplaced child hpos
    have hk0 : st.cnt child = 0 := by rw [hM.base.cnt_eq child, if_neg hnf]
    have hmaxi : maxIdxWith st.levels cur = layerIdx st.levels cur :=
      maxIdxWith_eq_layerIdx hM.base.flat_nodup hM.cur_flat
    have hmaxlt := maxIdxWith_lt_length hM.base.levels_ne cur
    by_cases hpad : st.levels.length ≤ maxIdxWith st.levels cur + 1
    · have hstep : stepChild cur st child = ⟨upd st.indeg child (st.indeg child - 1),
          upd st.cnt child (st.cnt child + 1),
          (st.levels ++ [[]]).set (maxIdxWith st.levels cur + 1)
            (((st.levels ++ [[]]).getD (maxIdxWith st.levels cur + 1) []) ++ [child]),
          st.queue ++ [child]⟩ := by
        simp only [stepChild]
        rw [if_pos hd, if_pos hk0, if_pos hpad]
      have hflat : (st.levels ++ [[]]).flatten = flatBL st := by
        simp [flatBL]
      have hi : maxIdxWith st.levels cur + 1 < (st.levels ++ [[]]).length := by
        rw [List.length_append]
        simp only [List.length_singleton]
        omega
      have hiq : maxIdxWith st.levels cur + 1 = layerIdx st.levels cur + 1 := by
        rw [hmaxi]
      have hxL : child ∉ (st.levels ++ [[]]).flatten := by
        rw [hflat]
        exact hnf
      have hposL : ∀ v ∈ flatBL st,
          layerIdx ((st.levels ++ [[]]).set (maxIdxWith st.levels cur + 1)
            (((st.levels ++ [[]]).getD (maxIdxWith st.levels cur + 1) []) ++ [child])) v
          = layerIdx st.levels v := by
        intro v hv
        have hv2 : v ∈ (st.levels ++ [[]]).flatten := by
          rw [hflat]
          exact hv
        rw [layerIdx_set_stable hi hxL hv2]
        exact layerIdx_pad hv
      have hlen : (st.levels ++ [[]]).length ≤ layerIdx st.levels cur + 2 := by
        rw [List.length_append]
        simp only [List.length_singleton]
        omega
      rw [hstep]
      exact place_midinv hE hM hCN hchild hndone hd hflat hi hiq hposL hlen
    · have hstep : stepChild cur st child = ⟨upd st.indeg child (st.indeg child - 1),
          upd st.cnt child (st.cnt child + 1),
          st.levels.set (maxIdxWith st.levels cur + 1)
            ((st.levels.getD (maxIdxWith st.levels cur + 1) []) ++ [child]),
          st.queue ++ [child]⟩ := by
        simp only [stepChild]
        rw [if_pos hd, if_pos hk0, if_neg hpad]
      have hi : maxIdxWith st.levels cur + 1 < st.levels.length := by omega
      have hiq : maxIdxWith st.levels cur + 1 = layerIdx st.levels cur + 1 := by
        rw [hmaxi]
      have hxL : child ∉ st.levels.flatten := hnf
      have hposL : ∀ v ∈ flatBL st,
          layerIdx (st.levels.set (maxIdxWith st.levels cur + 1)
            ((st.levels.getD (maxIdxWith st.levels cur + 1) []) ++ [child])) v
          = layerIdx st.levels v := by
        intro v hv
        exact layerIdx_set_stable hi hxL hv
      have hlen : st.levels.length ≤ layerIdx st.levels cur + 2 := hM.qlen
      rw [hstep]
      exact place_midinv hE hM hCN hchild hndone hd rfl hi hiq hposL hlen
  · have hstep : stepChild cur st child
        = ⟨upd st.indeg child (st.indeg child - 1), st.cnt, st.levels, st.queue⟩ := by
      simp only [stepChild]
      rw [if_neg hd]
    have hb := (@stepChild_inv g cur st child hM.base hCN).1
    rw [hstep] at hb
    rw [hstep]
    refine ⟨hb, hM.cur_flat, hM.cur_notq, hM.qchain, hM.qband, hM.qlen,
      hM.popped_le, hM.popped_le_cur, hM.edge_ok, ?_⟩
    intro v
    have hind := hM.indeg_eq v
    dsimp only [flatBL] at hind ⊢
    have hdone2 : ∀ w : String, (w ∈ done ++ [child]) ↔ (w ∈ done ∨ w = child) := by
      intro w
      simp
    by_cases hvch : v = child
    · subst hvch
      rw [upd_same]
      rw [if_neg hndone] at hind
      rw [if_pos ((hdone2 v).mpr (Or.inr rfl))]
      omega
    · rw [upd_ne _ _ _ _ hvch]
      by_cases hvd : v ∈ done
      · rw [if_pos hvd] at hind
        rw [if_pos ((hdone2 v).mpr (Or.inl hvd))]
        exact hind
      · rw [if_neg hvd] at hind
        rw [if_neg (fun hc => by
          rcases (hdone2 v).mp hc with hc | hc
          · exact hvd hc
          · exact hvch hc)]
        exact hind

theorem foldl_midinv {g : Graph} {cur : String} (hE : g.edges.Nodup)
    (hTN : ∀ e ∈ g.edges, e.2 ∈ g.nodes) :
    ∀ (todo done : List String) (st : BLState),
      done ++ todo = successors g cur → (done ++ todo).Nodup →
      BLInvM g cur done st →
      BLInvM g cur (successors g cur) (todo.foldl (stepChild cur) st) := by
  intro todo
  induction todo with
  | nil =>
      intro done st hsplit hnd hM
      simp only [List.foldl_nil]
      have hde : done = successors g cur := by simpa using hsplit
      rw [← hde]
      exact hM
  | cons c todo2 ih =>
      intro done st hsplit hnd hM
      simp only [List.foldl_cons]
      have hcs : c ∈ successors g cur := by
        rw [← hsplit]
        simp
      have hedge : (cur, c) ∈ g.edges := mem_successors_iff.mp hcs
      have hCN : c ∈ g.nodes := hTN (cur, c) hedge
      have hcnd : c ∉ done := by
        intro hc
        have hdisj := List.disjoint_of_nodup_append hnd
        exact hdisj hc (by simp)
      have hstep := stepChild_midinv hE hM hCN hedge hcnd
      apply ih (done ++ [c]) _ _ _ hstep
      · rw [List.append_assoc]
        simpa using hsplit
      · rw [List.append_assoc]
        simpa using hnd

/-- After the whole successor list of `cur` has been processed, the
in-degree bookkeeping takes its loop-head form again, with `cur` now
counted among the popped sources. -/
theorem midinv_indeg_clean {g : Graph} {cur : String} {st : BLState}
    (hE : g.edges.Nodup) (hM : BLInvM g cur (successors g cur) st) :
    ∀ v, st.indeg v = (inDeg g v : Int)
      - (((preds g v).filter
          (fun s => decide (s ∈ flatBL st) && !decide (s ∈ st.queue))).length : Int) := by
  intro v
  have hind := hM.indeg_eq v
  by_cases hvc : cur ∈ preds g v
  · have hvs : v ∈ successors g cur := mem_successors_iff.mpr (mem_preds_iff.mp hvc)
    rw [if_pos hvs] at hind
    have hsplit := length_filter_split
      (p := fun s => decide (s ∈ flatBL st) && !decide (s ∈ st.queue))
      (preds_nodup hE v) hvc
    have hpcur : (decide (cur ∈ flatBL st) && !decide (cur ∈ st.queue)) = true := by
      rw [decide_eq_true hM.cur_flat, decide_eq_false hM.cur_notq]
      rfl
    beta_reduce at hsplit
    rw [if_pos hpcur] at hsplit
    omega
  · have hvs : v ∉ successors g cur :=
      fun hc => hvc (mem_preds_iff.mpr (mem_successors_iff.mp hc))
    rw [if_neg hvs] at hind
    have hcong : (preds g v).filter
        (fun s => decide (s ∈ flatBL st) && !decide (s ∈ st.queue) && !decide (s = cur))
        = (preds g v).filter
        (fun s => decide (s ∈ flatBL st) && !decide (s ∈ st.queue)) := by
      apply List.filter_congr
      intro s hs
      have hsc : s ≠ cur := fun he => hvc (he ▸ hs)
      simp [hsc]
    rw [hcong] at hind
    omega

/-- On a ranked (acyclic) graph, whenever the queue is empty and the
in-degree bookkeeping is in loop-head form, no node retains positive
in-degree — so the forced cycle-break can never fire. -/
theorem no_bad_of_rank {g : Graph} {rank : String → Nat} {st : BLState}
    (hWF : WF g) (hrank : ∀ e ∈ g.edges, rank e.1 < rank e.2)
    (hclean : ∀ v, st.indeg v = (inDeg g v : Int)
      - (((preds g v).filter
          (fun s => decide (s ∈ flatBL st) && !decide (s ∈ st.queue))).length : Int))
    (hqe : st.queue = [])
    (hunp : ∀ v ∈ g.nodes, v ∉ flatBL st → 0 < st.indeg v) :
    ∀ v ∈ g.nodes, st.indeg v ≤ 0 := by
  obtain ⟨hN, hends, hE, hSL, hPat⟩ := hWF
  by_contra hc
  push_neg at hc
  obtain ⟨v0, hv0n, hv0pos⟩ := hc
  have hbne : g.nodes.filter (fun v => decide (0 < st.indeg v)) ≠ [] := by
    intro hnil
    have hv0m : v0 ∈ g.nodes.filter (fun v => decide (0 < st.indeg v)) := by
      rw [List.mem_filter]
      exact ⟨hv0n, decide_eq_true hv0pos⟩
    rw [hnil] at hv0m
    cases hv0m
  obtain ⟨m, hmbad, hmmin⟩ := exists_rank_min hbne rank
  rw [List.mem_filter] at hmbad
  obtain ⟨hmn, hmpos'⟩ := hmbad
  have hmpos : 0 < st.indeg m := of_decide_eq_true hmpos'
  have hcl := hclean m
  have hID := inDeg_eq_preds_length g m
  have hflt : ((preds g m).filter
      (fun s => decide (s ∈ flatBL st) && !decide (s ∈ st.queue))).length
      < (preds g m).length := by
    have hle := List.length_filter_le
      (fun s => decide (s ∈ flatBL st) && !decide (s ∈ st.queue)) (preds g m)
    omega
  obtain ⟨s, hsp, hsfalse⟩ := exists_not_of_filter_lt hflt
  have hsnotf : s ∉ flatBL st := by
    intro hsf
    rw [hqe] at hsfalse
    rw [decide_eq_true hsf] at hsfalse
    simpa using hsfalse
  have hsedge : (s, m) ∈ g.edges := mem_preds_iff.mp hsp
  have hsn : s ∈ g.nodes := (hends (s, m) hsedge).1
  have hspos : 0 < st.indeg s := hunp s hsn hsnotf
  have hsbad : s ∈ g.nodes.filter (fun v => decide (0 < st.indeg v)) := by
    rw [List.mem_filter]
    exact ⟨hsn, decide_eq_true hspos⟩
  have h1 := hmmin s hsbad
  have h2 := hrank (s, m) hsedge
  simp only at h2
  omega

/-- One full body of the `while queue:` loop preserves the loop-head
invariant of the acyclic run, and leaves every in-degree nonpositive when
it empties the queue. -/
theorem stepBL_invA {g : Graph} {rank : String → Nat} {cur : String}
    {rest : List String} {st : BLState}
    (hWF : WF g) (hrank : ∀ e ∈ g.edges, rank e.1 < rank e.2)
    (hA : BLInvA g st) (hq : st.queue = cur :: rest) :
    BLInvA g (stepBL g cur ⟨st.indeg, st.cnt, st.levels, rest⟩) ∧
    ((stepBL g cur ⟨st.indeg, st.cnt, st.levels, rest⟩).queue = [] →
      ∀ v ∈ g.nodes, (stepBL g cur ⟨st.indeg, st.cnt, st.levels, rest⟩).indeg v ≤ 0) := by
  have hN := hWF.1
  have hends := hWF.2.1
  have hE := hWF.2.2.1
  have hPat := hWF.2.2.2.2
  have hcurn : cur ∈ g.nodes :=
    hA.base.flat_sub cur (hA.base.queue_sub cur (by rw [hq]; simp))
  have hcanon : canonOf cur = cur := canonOf_eq_self (hPat cur hcurn)
  have hMentry := invA_pop_entry hA hq
  have hMend := foldl_midinv hE (fun e he => (hends e he).2) (successors g cur) []
    ⟨st.indeg, st.cnt, st.levels, rest⟩ (by simp) (by simpa using successors_nodup hE cur)
    hMentry
  have hclean := midinv_indeg_clean hE hMend
  have hstep : stepBL g cur ⟨st.indeg, st.cnt, st.levels, rest⟩
      = stepBreak g ((successors g cur).foldl (stepChild cur)
          ⟨st.indeg, st.cnt, st.levels, rest⟩) := by
    unfold stepBL
    rw [hcanon]
  have hbreak : stepBreak g ((successors g cur).foldl (stepChild cur)
      ⟨st.indeg, st.cnt, st.levels, rest⟩)
      = (successors g cur).foldl (stepChild cur) ⟨st.indeg, st.cnt, st.levels, rest⟩ := by
    unfold stepBreak
    by_cases hg : ((successors g cur).foldl (stepChild cur)
        ⟨st.indeg, st.cnt, st.levels, rest⟩).queue = [] ∧
        (g.nodes.any (fun v => decide (0 <
          ((successors g cur).foldl (stepChild cur)
            ⟨st.indeg, st.cnt, st.levels, rest⟩).indeg v))) = true
    · exfalso
      obtain ⟨hqe, hany⟩ := hg
      rw [List.any_eq_true] at hany
      obtain ⟨v0, hv0n, hv0⟩ := hany
      have hz := no_bad_of_rank hWF hrank hclean hqe
        hMend.base.unplaced_indeg_pos v0 hv0n
      have := of_decide_eq_true hv0
      omega
    · rw [if_neg hg]
  rw [hstep, hbreak]
  constructor
  · refine ⟨hMend.base, hMend.qchain, ?_, hMend.popped_le, hMend.edge_ok, hclean⟩
    intro v hv
    have h1 := hMend.qlen
    have h2 := (hMend.qband v hv).1
    omega
  · intro hqe v hvn
    exact no_bad_of_rank hWF hrank hclean hqe hMend.base.unplaced_indeg_pos v hvn

theorem loopBL_invA {g : Graph} {rank : String → Nat}
    (hWF : WF g) (hrank : ∀ e ∈ g.edges, rank e.1 < rank e.2) :
    ∀ (fuel : Nat) (st : BLState) (res : List (List String)),
      BLInvA g st →
      (st.queue = [] → ∀ v ∈ g.nodes, st.indeg v ≤ 0) →
      loopBL g fuel st = some res →
      ∀ e ∈ g.edges, e.1 ∈ res.flatten ∧ e.2 ∈ res.flatten ∧
        layerIdx res e.1 < layerIdx res e.2 := by
  have hends := hWF.2.1
  intro fuel
  induction fuel with
  | zero =>
      intro st res hA hexit h
      simp only [loopBL] at h
      cases hq : st.queue with
      | nil =>
          rw [hq] at h
          simp only at h
          have h' := Option.some.inj h
          subst h'
          have hall : ∀ v ∈ g.nodes, v ∈ flatBL st := by
            intro v hvn
            by_contra hvf
            have h1 := hA.base.unplaced_indeg_pos v hvn hvf
            have h2 := hexit hq v hvn
            omega
          intro e he
          have h2f : e.2 ∈ flatBL st := hall e.2 (hends e he).2
          obtain ⟨h1f, hlt, _⟩ := hA.edge_ok e he h2f
          exact ⟨h1f, h2f, hlt⟩
      | cons cur rest =>
          rw [hq] at h
          exact absurd h (by simp)
  | succ fuel ih =>
      intro st res hA hexit h
      simp only [loopBL] at h
      cases hq : st.queue with
      | nil =>
          rw [hq] at h
          simp only at h
          have h' := Option.some.inj h
          subst h'
          have hall : ∀ v ∈ g.nodes, v ∈ flatBL st := by
            intro v hvn
            by_contra hvf
            have h1 := hA.base.unplaced_indeg_pos v hvn hvf
            have h2 := hexit hq v hvn
            omega
          intro e he
          have h2f : e.2 ∈ flatBL st := hall e.2 (hends e he).2
          obtain ⟨h1f, hlt, _⟩ := hA.edge_ok e he h2f
          exact ⟨h1f, h2f, hlt⟩
      | cons cur rest =>
          rw [hq] at h
          simp only at h
          obtain ⟨hA', hexit'⟩ := stepBL_invA hWF hrank hA hq
          exact ih _ res hA' hexit' h

/-! ### Theorems: claim C9 (termination and alias bound) -/

/-- C9: on every input graph with duplicate-free node ids and edge targets
among the nodes (cyclic or not), `build_levels` terminates — the fuel
`nodes.length + 1` of the embedding is never exhausted — and the total
number of aliases minted (equivalently, of queue insertions: layer 0 and
the initial queue are the same list, and both the normal path and the
forced break append one alias to a layer exactly when they enqueue it) is
bounded by the node count. -/
theorem buildLevels_total_bounded (g : Graph) (hN : g.nodes.Nodup)
    (hT : ∀ e ∈ g.edges, e.2 ∈ g.nodes) :
    ∃ res, buildLevels g = some res ∧ res.flatten.length ≤ g.nodes.length := by
  have hinv := initBL_inv (g := g) hN
  have hm : (initBL g).queue.length + (g.nodes.length - (flatBL (initBL g)).length)
      < g.nodes.length + 1 := by
    have h1 : (initBL g).queue.length
        = (g.nodes.filter (fun v => decide ((inDeg g v : Int) = 0))).length := rfl
    have h2 : (flatBL (initBL g)).length
        = (g.nodes.filter (fun v => decide ((inDeg g v : Int) = 0))).length := by
      simp [initBL, flatBL]
    have h3 := List.length_filter_le (fun v => decide ((inDeg g v : Int) = 0)) g.nodes
    omega
  have hsome := loopBL_term hT (g.nodes.length + 1) (initBL g) hinv hm
  obtain ⟨res, hres⟩ := Option.isSome_iff_exists.mp hsome
  have hsound := loopBL_sound hT (g.nodes.length + 1) (initBL g) res hinv hres
  exact ⟨res, hres,
    (List.subperm_of_subset hsound.1 (fun a ha => hsound.2 a ha)).length_le⟩

/-- Witness for C9 on the chain graph. -/
theorem buildLevels_total_bounded_wit :
    chainG.nodes.Nodup ∧ (∀ e ∈ chainG.edges, e.2 ∈ chainG.nodes) ∧
    ∃ res, buildLevels chainG = some res ∧ res.flatten.length ≤ chainG.nodes.length := by
  refine ⟨by decide, by decide, ?_⟩
  exact buildLevels_total_bounded chainG (by decide) (by decide)

/-! ### Theorems: claim C10 (one bare alias per node) -/

/-- C10: in every run of `build_levels` (on a graph with duplicate-free
node ids and edge targets among the nodes), the returned layering contains
pairwise-distinct alias strings, each of which is a bare canonical node id
(the `"_k"` disambiguation branch is never taken: a node is placed by the
normal path only when its in-degree first reaches zero, and by the forced
break only while its in-degree is still positive — each possible at most
once and mutually exclusive, so `alias_cnt` is never ≥ 1 at minting time);
consequently every canonical node appears in at most one layer, at most
once. -/
theorem buildLevels_aliases_bare (g : Graph) (hN : g.nodes.Nodup)
    (hT : ∀ e ∈ g.edges, e.2 ∈ g.nodes) (res : List (List String))
    (hres : buildLevels g = some res) :
    res.flatten.Nodup ∧ (∀ a ∈ res.flatten, a ∈ g.nodes) ∧
    (∀ v : String, res.flatten.count v ≤ 1) := by
  have hsound := loopBL_sound hT (g.nodes.length + 1) (initBL g) res (initBL_inv hN) hres
  exact ⟨hsound.1, hsound.2,
    fun v => List.nodup_iff_count_le_one.mp hsound.1 v⟩

/-- Witness for C10 on the chain graph. -/
theorem buildLevels_aliases_bare_wit :
    chainG.nodes.Nodup ∧ (∀ e ∈ chainG.edges, e.2 ∈ chainG.nodes) ∧
    buildLevels chainG = some [["A0"], ["B0"], ["C0"]] ∧
    ([["A0"], ["B0"], ["C0"]] : List (List String)).flatten.Nodup ∧
    (∀ a ∈ ([["A0"], ["B0"], ["C0"]] : List (List String)).flatten, a ∈ chainG.nodes) ∧
    (∀ v : String, ([["A0"], ["B0"], ["C0"]] : List (List String)).flatten.count v ≤ 1) := by
  have h := buildLevels_aliases_bare chainG (by decide) (by decide)
    [["A0"], ["B0"], ["C0"]] (by decide)
  exact ⟨by decide, by decide, by decide, h.1, h.2.1, h.2.2⟩

/-! ### Theorems: claim C8 (malformed names make `bump` raise) -/

/-- C8: for every input string failing the `<letters><digits>` pattern —
i.e. admitting no decomposition into a nonempty ASCII-alphabetic part
followed by a nonempty part of `\d` digits, which is exactly failure of
the source's `_pat.fullmatch` — the rename computation `bump` raises (the
`fullmatch` result is `None`, so the `.groups()` access raises, surfaced
to the caller — modelled as `none`); it never returns a value on such
input.  The statement quantifies over the digit class `isD` that `\d`
denotes (any Unicode decimal digit in a `str` pattern) and the digit
values `dv` that `int` reads, so it is independent of pinning down the
Unicode Nd table; its ASCII instance is the `bump` used throughout this
development. -/
theorem bump_malformed_none (isD : Char → Bool) (dv : Char → Nat)
    (s : String)
    (h : ¬ ∃ a d : List Char, s.data = a ++ d ∧ a ≠ [] ∧ d ≠ [] ∧
        (∀ c ∈ a, c.isAlpha = true) ∧ (∀ c ∈ d, isD c = true)) :
    patMatchD isD dv s = none ∧
      ∀ coin : Bool, bumpD isD dv coin s = none := by
  have hp : patMatchD isD dv s = none := by
    cases hm : patMatchD isD dv s with
    | none => rfl
    | some pr =>
        exfalso
        apply h
        simp only [patMatchD] at hm
        split at hm
        case isTrue hcond =>
            obtain ⟨hane, hdne, hall⟩ := hcond
            refine ⟨s.data.takeWhile Char.isAlpha,
              s.data.drop (s.data.takeWhile Char.isAlpha).length,
              ?_, hane, hdne, ?_, ?_⟩
            · rw [drop_length_takeWhile]
              exact (List.takeWhile_append_dropWhile _ _).symm
            · exact fun c hc => List.mem_takeWhile_imp hc
            · exact fun c hc => List.all_eq_true.mp hall c hc
        case isFalse => exact absurd hm (by simp)
  exact ⟨hp, fun coin => by simp [bumpD, hp]⟩

/-- Witness for C8 at the concrete malformed input `""`, with the digit
class instantiated at the ASCII digits. -/
theorem bump_malformed_none_wit :
    (¬ ∃ a d : List Char, ("" : String).data = a ++ d ∧ a ≠ [] ∧ d ≠ [] ∧
        (∀ c ∈ a, c.isAlpha = true) ∧ (∀ c ∈ d, Char.isDigit c = true)) ∧
    patMatchD Char.isDigit (fun c => c.toNat - 48) "" = none ∧
    bumpD Char.isDigit (fun c => c.toNat - 48) true "" = none := by
  have hnf : ¬ ∃ a d : List Char, ("" : String).data = a ++ d ∧ a ≠ [] ∧
      d ≠ [] ∧ (∀ c ∈ a, c.isAlpha = true) ∧
      (∀ c ∈ d, Char.isDigit c = true) := by
    rintro ⟨a, d, hs, hane, hdne, ha, hd⟩
    have h0 : a ++ d = [] := hs.symm
    exact hane (List.append_eq_nil.mp h0).1
  exact ⟨hnf,
    (bump_malformed_none Char.isDigit (fun c => c.toNat - 48) "" hnf).1,
    (bump_malformed_none Char.isDigit (fun c => c.toNat - 48) "" hnf).2 true⟩

/-! ### Theorems: claim C2 (the two-node cycle `A0→B0, B0→A0`) -/

/-- C2 (code bug): on the pure two-node cycle the initial queue is empty —
both nodes have in-degree 1, so layer 0 is empty — and the `while queue:`
body, which contains the forced cycle-break, never executes.  `build_levels`
returns `[[]]`: it does terminate, but the forced-break path is never
invoked and neither node is ever layered, contradicting the claim (and
§4.2/§8 of the spec, which require the residual cycle to be force-broken).
This theorem evaluates the code at the failing input: the returned layering
is the single empty layer, containing no alias at all (had a forced break
fired, its alias would appear as a trailing singleton layer). -/
theorem cyc2_buildLevels_result :
    buildLevels cyc2G = some [[]] ∧
    (∀ l ∈ [([] : List String)], l = []) := by
  exact ⟨by decide, by simp⟩

/-! ### Theorems: claim C3 (layering a graph with zero nodes) -/

/-- C3 (counterexample): on the zero-node graph `build_levels` does not
return a layer sequence of length zero: `levels` is initialised to
`[level0.copy()]`, so the result is `[[]]` — a sequence of length one
holding a single empty layer. -/
theorem emptyG_buildLevels_not_length_zero :
    buildLevels emptyG = some [[]] ∧ buildLevels emptyG ≠ some [] := by
  decide

/-- C3 (amended): on the zero-node graph `build_levels` terminates without
error and returns `[[]]`: a layer sequence of length one whose single layer
is empty, containing no aliases. -/
theorem emptyG_buildLevels_single_empty_layer :
    buildLevels emptyG = some [[]] := by decide

/-! ### Theorems: claim C1 (determinism of the run) -/

/-- C1: two runs over the same graph whose random sources produce the same
draws (as two identically-seeded `random` generators do), executing the same
`build_levels` layering and the same `transform` pass, yield the same layer
sequence and, for every node, identical `rename_history` sequences. -/
theorem transform_deterministic (g : Graph) (rs1 rs2 : Nat → Bool)
    (data0 : String → NodeData) (idx0 : Nat)
    (hrs : ∀ n, rs1 n = rs2 n)
    (lv1 lv2 : List (List String))
    (h1 : buildLevels g = some lv1) (h2 : buildLevels g = some lv2) :
    lv1 = lv2 ∧ ∀ v : String,
      (transform g lv1 rs1 data0 idx0).map (fun st => (st.data v).history) =
      (transform g lv2 rs2 data0 idx0).map (fun st => (st.data v).history) := by
  have hlv : lv1 = lv2 := by
    rw [h1] at h2
    exact Option.some.inj h2
  have hfun : rs1 = rs2 := funext hrs
  subst hlv
  subst hfun
  exact ⟨rfl, fun v => rfl⟩

/-- Witness for C1 on the chain graph with two pointwise-equal streams. -/
theorem transform_deterministic_wit :
    (∀ n, rsA n = rsB n) ∧
    buildLevels chainG = some [["A0"], ["B0"], ["C0"]] ∧
    (([["A0"], ["B0"], ["C0"]] : List (List String)) = [["A0"], ["B0"], ["C0"]] ∧
      ∀ v : String,
        (transform chainG [["A0"], ["B0"], ["C0"]] rsA (fun v => initNode v) 0).map
          (fun st => (st.data v).history) =
        (transform chainG [["A0"], ["B0"], ["C0"]] rsB (fun v => initNode v) 0).map
          (fun st => (st.data v).history)) := by
  have hrs : ∀ n, rsA n = rsB n := by
    intro n
    simp [rsA, rsB]
  have hlv : buildLevels chainG = some [["A0"], ["B0"], ["C0"]] := by decide
  exact ⟨hrs, hlv,
    transform_deterministic chainG rsA rsB (fun v => initNode v) 0 hrs _ _ hlv hlv⟩

/-! ### Theorems: claim C7 (`len(rename_history) == transform_count`) -/

/-- C7: `len(rename_history) == transform_count` holds at node creation
(both are zero), is preserved by every step of the transformation engine
(each `doAlias` step appends exactly one history entry while incrementing
`n_transforms` by one), and therefore holds for every node after any run of
`transform`. -/
theorem transform_count_consistency :
    (∀ v : String, countOk (initNode v)) ∧
    (∀ (g : Graph) (rs : Nat → Bool) (depth : Nat) (st : TState) (a : String)
        (st' : TState), doAlias g rs depth st a = some st' →
        (∀ v, countOk (st.data v)) → ∀ v, countOk (st'.data v)) ∧
    (∀ (g : Graph) (lv : List (List String)) (rs : Nat → Bool)
        (data0 : String → NodeData) (idx0 : Nat) (st' : TState),
        (∀ v, countOk (data0 v)) →
        transform g lv rs data0 idx0 = some st' →
        ∀ v, countOk (st'.data v)) := by
  refine ⟨fun v => rfl, fun g rs depth st a st' h hs => doAlias_countOk h hs,
    fun g lv rs data0 idx0 st' h0 h => ?_⟩
  simp only [transform] at h
  exact runLevels_inv (P := fun st => ∀ v, countOk (st.data v))
    (fun depth st a st' hd hs => doAlias_countOk hd hs) lv 0
    ⟨data0, fun _ => none, idx0⟩ st' h h0

/-- Witness for C7: a full run on the chain graph. -/
theorem transform_count_consistency_wit :
    (∀ v, countOk (initNode v)) ∧
    ∃ st', transform chainG [["A0"], ["B0"], ["C0"]] rsA (fun v => initNode v) 0 =
        some st' ∧ ∀ v, countOk (st'.data v) := by
  have h0 : ∀ v : String, countOk (initNode v) := fun v => rfl
  have hs : (transform chainG [["A0"], ["B0"], ["C0"]] rsA
      (fun v => initNode v) 0).isSome = true := rfl
  obtain ⟨st', hst'⟩ := Option.isSome_iff_exists.mp hs
  exact ⟨h0, st', hst',
    transform_count_consistency.2.2 chainG [["A0"], ["B0"], ["C0"]] rsA
      (fun v => initNode v) 0 st' h0 hst'⟩

/-! ### Theorems: claim C5 (rename structure and suffix increment) -/

/-- C5: on every display name matching `<letters><digits>`, `bump` returns
the name whose alphabetic prefix is the input's prefix recased all-upper or
all-lower (by the random draw) and whose numeric suffix is the input's
numeric suffix plus exactly one (`renamedBy` spells out both conditions);
consequently, in any successful `transform` run starting from histories
whose entries already satisfy this relation (e.g. empty ones), every entry
of every node's `rename_history` satisfies it — in particular the numeric
suffix of each entry's new name is `1 +` the numeric suffix of its old
name. -/
theorem bump_suffix_increment :
    (∀ (coin : Bool) (old a : String) (n : Nat),
        patMatch old = some (a, n) →
        bump coin old =
          some ((if coin then a.toUpper else a.toLower) ++ natStr (n + 1)) ∧
        renamedBy old ((if coin then a.toUpper else a.toLower) ++ natStr (n + 1))) ∧
    (∀ (g : Graph) (lv : List (List String)) (rs : Nat → Bool)
        (data0 : String → NodeData) (idx0 : Nat) (st' : TState),
        (∀ v, histOk (data0 v).history) →
        transform g lv rs data0 idx0 = some st' →
        ∀ v, histOk (st'.data v).history) := by
  refine ⟨fun coin old a n h => bump_renames h coin,
    fun g lv rs data0 idx0 st' h0 h => ?_⟩
  simp only [transform] at h
  exact runLevels_inv (P := fun st => ∀ v, histOk (st.data v).history)
    (fun depth st a st' hd hs => doAlias_histOk hd hs) lv 0
    ⟨data0, fun _ => none, idx0⟩ st' h h0

/-- Witness for C5: `bump` at `"A0"` with an upper coin, and a full run on
the chain graph from freshly created nodes. -/
theorem bump_suffix_increment_wit :
    patMatch "A0" = some ("A", 0) ∧
    (bump true "A0" = some ("A".toUpper ++ natStr 1) ∧
      renamedBy "A0" ("A".toUpper ++ natStr 1)) ∧
    (∀ v, histOk ((initNode v).history)) ∧
    ∃ st', transform chainG [["A0"], ["B0"], ["C0"]] rsA (fun v => initNode v) 0 =
        some st' ∧ ∀ v, histOk (st'.data v).history := by
  have hpm : patMatch "A0" = some ("A", 0) := by decide
  have h0 : ∀ v : String, histOk ((initNode v).history) := by
    intro v pr hpr
    simp [initNode] at hpr
  have hs : (transform chainG [["A0"], ["B0"], ["C0"]] rsA
      (fun v => initNode v) 0).isSome = true := rfl
  obtain ⟨st', hst'⟩ := Option.isSome_iff_exists.mp hs
  have h1 := bump_suffix_increment.1 true "A0" "A" 0 hpm
  exact ⟨hpm, h1, h0, st', hst',
    bump_suffix_increment.2 chainG [["A0"], ["B0"], ["C0"]] rsA
      (fun v => initNode v) 0 st' h0 hst'⟩

/-! ### Theorems: claim C6 (the chain `A0→B0→C0` example) -/

/-- C6: on the chain `A0→B0→C0`, `build_levels` returns exactly the three
layers `[A0], [B0], [C0]`; after one full `transform` pass under any coin
stream (i.e. any seed), `A0`'s rename history has exactly one entry, whose
old name `"A0"` parses with numeric suffix `0` and whose new name (`"A1"`
or `"a1"` by the first draw) parses with numeric suffix `1`; and `C0`'s
`parent_history` has exactly one entry, a single pair whose second
component is the post-transform display name of `B0`. -/
theorem chain_example_run :
    buildLevels chainG = some [["A0"], ["B0"], ["C0"]] ∧
    ∀ rs : Nat → Bool,
      (transform chainG [["A0"], ["B0"], ["C0"]] rs (fun v => initNode v) 0).isSome
        = true ∧
      (transform chainG [["A0"], ["B0"], ["C0"]] rs (fun v => initNode v) 0).map
          (fun st => (st.data "A0").history) =
        some [("A0", if rs 0 then "A1" else "a1")] ∧
      patMatch "A0" = some ("A", 0) ∧
      patMatch (if rs 0 then "A1" else "a1") =
        some ((if rs 0 then "A" else "a"), 1) ∧
      (transform chainG [["A0"], ["B0"], ["C0"]] rs (fun v => initNode v) 0).map
          (fun st => (st.data "C0").parent_history) =
      (transform chainG [["A0"], ["B0"], ["C0"]] rs (fun v => initNode v) 0).map
          (fun st => [[("B0", (st.data "B0").name)]]) := by
  refine ⟨by decide, fun rs => ?_⟩
  cases h0 : rs 0 <;> cases h1 : rs 1 <;> cases h2 : rs 2 <;>
    simp +decide [transform, runLevels, runLayer, doAlias, bump, patMatch, canonOf,
      chainG, initNode, preds, h0, h1, h2, natStr, natDigits, digChar, digitsVal, upd,
      toUpper_A, toLower_A, toUpper_B, toLower_B, toUpper_C, toLower_C]

/-! ### Theorems: claim C4 (acyclic inputs are layered topologically) -/

/-- C4: on every well-formed input graph made acyclic by a rank function
(every edge strictly increases the rank), `build_levels` succeeds, no
forced break ever fires (the cycle-breaker guard is provably false
throughout the run), and the returned layer sequence places every edge's
source strictly above its target: both endpoints are layered and
`layer(target) > layer(source)`. -/
theorem buildLevels_topological (g : Graph) (rank : String → Nat)
    (hWF : WF g) (hrank : ∀ e ∈ g.edges, rank e.1 < rank e.2) :
    ∃ res, buildLevels g = some res ∧
      ∀ e ∈ g.edges, e.1 ∈ res.flatten ∧ e.2 ∈ res.flatten ∧
        layerIdx res e.1 < layerIdx res e.2 := by
  obtain ⟨res, hres, _⟩ := buildLevels_total_bounded g hWF.1
    (fun e he => (hWF.2.1 e he).2)
  refine ⟨res, hres, ?_⟩
  apply loopBL_invA hWF hrank (g.nodes.length + 1) (initBL g) res (initBL_invA hWF)
    ?_ hres
  intro hqe v hvn
  exact no_bad_of_rank hWF hrank (initBL_invA hWF).indeg_eq hqe
    (initBL_inv hWF.1).unplaced_indeg_pos v hvn

/-- Witness for C4 on the chain graph. -/
theorem buildLevels_topological_wit :
    WF chainG ∧ (∀ e ∈ chainG.edges, rankChain e.1 < rankChain e.2) ∧
    ∃ res, buildLevels chainG = some res ∧
      ∀ e ∈ chainG.edges, e.1 ∈ res.flatten ∧ e.2 ∈ res.flatten ∧
        layerIdx res e.1 < layerIdx res e.2 := by
  refine ⟨?_, ?_, ?_⟩
  · refine ⟨by decide, by decide, by decide, by decide, by decide⟩
  · decide
  · exact buildLevels_topological chainG rankChain
      ⟨by decide, by decide, by decide, by decide, by decide⟩ (by decide)


end CodeGraphs
